import Mathlib

/-!
# texttools: a verification development

A shallow embedding of `texttools.go` (package `texttools`).

Go strings are byte sequences, so a string is a `List Byte`; `len` is `List.length`.
Go `int` parameters are `Int`; where 64-bit arithmetic can wrap around, the wrap is
explicit.  A slice expression `s[lo:hi]` fails at run time when its
bounds are out of range, so functions that slice return `Option`, `none` being the
run-time failure.
-/

namespace Texttools

/-! ## Bytes, runes and strings -/

/-- A Go `byte`. -/
abbrev Byte := Fin 256

/-- Go's `string(rune)` conversion (`utf8.AppendRune`): the UTF-8 encoding of a code point;
surrogates and values above `0x10FFFF` encode as U+FFFD. -/
def encodeRune (r : Nat) : List Byte :=
  if r < 0x80 then [Fin.ofNat r]
  else if r < 0x800 then [Fin.ofNat (0xC0 + r / 64), Fin.ofNat (0x80 + r % 64)]
  else if 0xD800 ≤ r ∧ r ≤ 0xDFFF then [0xEF, 0xBF, 0xBD]
  else if r < 0x10000 then
    [Fin.ofNat (0xE0 + r / 4096), Fin.ofNat (0x80 + r / 64 % 64), Fin.ofNat (0x80 + r % 64)]
  else if r ≤ 0x10FFFF then
    [Fin.ofNat (0xF0 + r / 262144), Fin.ofNat (0x80 + r / 4096 % 64),
      Fin.ofNat (0x80 + r / 64 % 64), Fin.ofNat (0x80 + r % 64)]
  else [0xEF, 0xBF, 0xBD]

/-- The bytes of a valid UTF-8 text given by its characters. -/
def utf8 (cs : List Char) : List Byte := cs.flatMap (fun c => encodeRune c.toNat)

/-- The bytes of a string literal of the Go source (Go source text is UTF-8). -/
def bytesOf (s : String) : List Byte := utf8 s.toList

/-- The slice expression `s[lo:hi]`; `none` when the bounds are out of range. -/
def sliceBytes (s : List Byte) (lo hi : Int) : Option (List Byte) :=
  if 0 ≤ lo ∧ lo ≤ hi ∧ hi ≤ (s.length : Int) then some ((s.take hi.toNat).drop lo.toNat)
  else none

/-! ## Shorten -/

/-- The character class `\s` of Go's regexp syntax, `[\t\n\f\r ]`.  The class `[\s\r\n]`
of `reLinesAndChars` is the same set. -/
def isSpace (b : Byte) : Bool := b = 9 || b = 10 || b = 12 || b = 13 || b = 32

/-- The character class `[.,;!?]` of `reSpaceBeforePunctuation`. -/
def isPunct (b : Byte) : Bool := b = 46 || b = 44 || b = 59 || b = 33 || b = 63

/-- Scanner for `reLinesAndChars.ReplaceAllLiteralString(str, " ")`.  The pattern
`[\s\r\n]+` is greedy, so a match is a maximal run of class bytes and the whole run is
replaced by one space; `inMatch` says that the byte before belongs to the current match. -/
def reLinesAndCharsScan : Bool → List Byte → List Byte
  | _, [] => []
  | inMatch, c :: cs =>
    if isSpace c then
      if inMatch then reLinesAndCharsScan true cs else 32 :: reLinesAndCharsScan true cs
    else c :: reLinesAndCharsScan false cs

/-- Line 92: `reLinesAndChars.ReplaceAllLiteralString(str, " ")`. -/
def reLinesAndCharsReplace (str : List Byte) : List Byte := reLinesAndCharsScan false str

/-- Whether the text is a (possibly empty) run of `\s` followed by a byte of `[.,;!?]`. -/
def beforePunctuation : List Byte → Bool
  | [] => false
  | c :: cs => if isSpace c then beforePunctuation cs else isPunct c

/-- Line 95: `reSpaceBeforePunctuation.ReplaceAllString(str, "$1")`.  A match of
`\s+([.,;!?]+)` starts at a `\s` byte whose run of `\s` is directly followed by
punctuation; the match is replaced by its punctuation, that is, the `\s` bytes are
dropped. -/
def reSpaceBeforePunctuationReplace : List Byte → List Byte
  | [] => []
  | c :: cs =>
    if isSpace c && beforePunctuation cs then reSpaceBeforePunctuationReplace cs
    else c :: reSpaceBeforePunctuationReplace cs

/-- Line 98: `strings.Trim(str, " ")`. -/
def trimSpaces (str : List Byte) : List Byte :=
  ((str.dropWhile (fun b => b = 32)).reverse.dropWhile (fun b => b = 32)).reverse

/-- Line 106: `strings.Split(str, " ")`. -/
def splitSpaces : List Byte → List (List Byte)
  | [] => [[]]
  | c :: cs =>
    if c = 32 then [] :: splitSpaces cs
    else
      match splitSpaces cs with
      | [] => [[c]]
      | p :: ps => (c :: p) :: ps

/-- The three preparation steps of `Shorten` (lines 92 to 98). -/
def normalize (str : List Byte) : List Byte :=
  trimSpaces (reSpaceBeforePunctuationReplace (reLinesAndCharsReplace str))

/-- The loop of lines 109 to 126 over the remaining parts, from the current `shorter`. -/
def accumulate (length : Int) (appendStr : List Byte) : List Byte → List (List Byte) → List Byte
  | shorter, [] => shorter
  | shorter, part :: parts =>
    if part = [] then accumulate length appendStr shorter parts
    else if (shorter.length : Int) + part.length + appendStr.length < length then
      accumulate length appendStr
        ((if shorter.length > 0 then shorter ++ [32] else shorter) ++ part) parts
    else shorter

/-- The difference `a - n` of an `int` and a length, as Go computes it in 64 bits: a length
is not negative, so the difference never exceeds the largest `int`; below the smallest
`int`, `-2^63`, it wraps around by `2^64`. -/
def int64SubLen (a : Int) (n : Nat) : Int :=
  if a - (n : Int) < -9223372036854775808 then a - (n : Int) + 18446744073709551616
  else a - (n : Int)

/-- The value of `shorter` after line 132: the accumulated words, or the substring
`str[0:endAt]` with `endAt := length - len(appendStr)` when no word was accumulated. -/
def kept (str : List Byte) (length : Int) (appendStr : List Byte) : Option (List Byte) :=
  let shorter := accumulate length appendStr [] (splitSpaces str)
  if shorter = [] then sliceBytes str 0 (int64SubLen length appendStr.length) else some shorter

/-- Lines 134 to 147: the punctuation step and the final append. -/
def reconcile (shorter appendStr : List Byte) : Option (List Byte) :=
  if shorter.length > 0 ∧ appendStr.length > 0 then do
    let lastChar ← sliceBytes shorter ((shorter.length : Int) - 1) shorter.length
    if lastChar = [46] ∨ lastChar = [44] ∨ lastChar = [59] then do
      let shorter ← sliceBytes shorter 0 ((shorter.length : Int) - 1)
      pure (shorter ++ appendStr)
    else if lastChar = [63] ∨ lastChar = [33] then do
      let appendStr ← sliceBytes appendStr 0 ((appendStr.length : Int) - 1)
      pure (shorter ++ appendStr)
    else pure (shorter ++ appendStr)
  else pure (shorter ++ appendStr)

/-- The function `Shorten(str, length, appendStr)`. -/
def Shorten (str : List Byte) (length : Int) (appendStr : List Byte) : Option (List Byte) :=
  let str := normalize str
  if (str.length : Int) ≤ length then some str
  else do
    let shorter ← kept str length appendStr
    reconcile shorter appendStr

/-- The words of a text: the non-empty parts of `strings.Split(str, " ")`, which are the
parts the loop of `Shorten` does not skip. -/
def words (str : List Byte) : List (List Byte) := (splitSpaces str).filter (fun p => p ≠ [])

/-- Texts joined by a separator byte (`strings.Join`). -/
def joinWith (sep : Byte) : List (List Byte) → List Byte
  | [] => []
  | [w] => w
  | w :: ws => w ++ sep :: joinWith sep ws

/-- Words joined by single spaces. -/
abbrev joinWords (ws : List (List Byte)) : List Byte := joinWith 32 ws

/-- The rows of `TestShortenWithAppend`, called with `Shorten(in, 20, "...")`. -/
def shortenWithAppendSamples : List (String × String) :=
  [("sampleText", "sampleText"),
   ("sample text", "sample text"),
   ("sampleTextThatIsTooLongWithNoSpaces", "sampleTextThatIsT..."),
   ("sampleTextThatIs.Something.", "sampleTextThatIs..."),
   ("sample text that? I don't know...", "sample text that?.."),
   ("sample text that.  \r\n \r\n\r\n   \r\n\r\n   Has some punctuation", "sample text that..."),
   ("sample text that . Has a dot in the middle", "sample text that..."),
   ("sample text\r\n \r\n\r\n   \r\n\r\n  that has lots of space like chars",
    "sample text that..."),
   (" \r\n \r\n\r\n   \r\n\r\n   ", "")]

/-- The rows of `TestShortenWithoutAppend`, called with `Shorten(in, 20, "")`. -/
def shortenWithoutAppendSamples : List (String × String) :=
  [("sampleText", "sampleText"),
   ("sample text", "sample text"),
   ("sampleTextThatIsTooLongWithNoSpaces", "sampleTextThatIsTooL"),
   ("sampleTextThatIsToo.Something.", "sampleTextThatIsToo."),
   ("sample text that? I don't know...", "sample text that? I"),
   ("sample text that.  \r\n \r\n\r\n   \r\n\r\n   Has some punctuation", "sample text that."),
   ("sample text that . Has a dot in the middle", "sample text that."),
   ("sample text\r\n \r\n\r\n   \r\n\r\n  that has lots of space like chars",
    "sample text that has"),
   (" \r\n \r\n\r\n   \r\n\r\n   ", "")]


/-! ## SpecialCharsToStandard -/

/-- The arguments of `strings.NewReplacer` at lines 22 to 83: the pairs old, new. -/
def specialCharsPairs : List (String × String) :=
  [("À", "A"), ("Á", "A"), ("Â", "A"), ("Ã", "A"), ("Ä", "A"), ("Å", "A"),
   ("Æ", "AE"), ("Ç", "C"), ("È", "E"), ("É", "E"), ("Ê", "E"), ("Ë", "E"),
   ("Ì", "I"), ("Í", "I"), ("Î", "I"), ("Ï", "I"), ("Ð", "Eth"), ("Ñ", "N"),
   ("Ò", "O"), ("Ó", "O"), ("Ô", "O"), ("Õ", "O"), ("Ö", "O"), ("Ø", "O"),
   ("Ù", "U"), ("Ú", "U"), ("Û", "U"), ("Ü", "U"), ("Ý", "Y"), ("Þ", "Thorn"),
   ("ß", "s"), ("à", "a"), ("á", "a"), ("â", "a"), ("ã", "a"), ("ä", "a"),
   ("å", "a"), ("æ", "ae"), ("ç", "c"), ("è", "e"), ("é", "e"), ("ê", "e"),
   ("ë", "e"), ("ì", "i"), ("í", "i"), ("î", "i"), ("ï", "i"), ("ð", "eth"),
   ("ñ", "n"), ("ò", "o"), ("ó", "o"), ("ô", "o"), ("õ", "o"), ("ö", "o"),
   ("ø", "o"), ("ù", "u"), ("ú", "u"), ("û", "u"), ("ü", "u"), ("ý", "y"),
   ("þ", "thorn"), ("ÿ", "y")]

/-- The pairs of `specialCharsReplacer` as Go strings, that is, as bytes. -/
def specialCharsReplacer : List (List Byte × List Byte) :=
  specialCharsPairs.map (fun p => (bytesOf p.1, bytesOf p.2))

/-- The lookup of a `strings.Replacer` at one position of the text: the first pair, in
argument order, whose old string is a prefix of the rest of the text. -/
def replacerLookup (pairs : List (List Byte × List Byte)) (s : List Byte) :
    Option (List Byte × List Byte) :=
  pairs.find? (fun p => p.1.isPrefixOf s)

/-- The method `Replace` of a `strings.Replacer` whose old strings are not empty: the text
is read from left to right; where an old string matches, its new string is written and
the match is passed over; elsewhere the byte is copied.  The first argument counts the
bytes of the current match that are still to be passed over. -/
def replacerReplace (pairs : List (List Byte × List Byte)) : Nat → List Byte → List Byte
  | _, [] => []
  | skip + 1, _ :: cs => replacerReplace pairs skip cs
  | 0, c :: cs =>
    match replacerLookup pairs (c :: cs) with
    | some p => p.2 ++ replacerReplace pairs (p.1.length - 1) cs
    | none => c :: replacerReplace pairs 0 cs

/-- The function `SpecialCharsToStandard(str)`. -/
def SpecialCharsToStandard (str : List Byte) : List Byte :=
  replacerReplace specialCharsReplacer 0 str

/-- The replacement of one character: the new string of the first pair whose old string
is this character, and the character itself when there is no such pair. -/
def transliterate (c : Char) : List Byte :=
  match specialCharsReplacer.find? (fun p => p.1 = encodeRune c.toNat) with
  | some p => p.2
  | none => encodeRune c.toNat

/-- Whether a character is one of the old strings of the table. -/
def isMapped (c : Char) : Bool :=
  specialCharsReplacer.any (fun p => p.1 = encodeRune c.toNat)

/-! ## CP1258ToUTF8 -/

/-- The array `cp1258` (lines 241 to 498). -/
def cp1258 : List Nat :=
  [0x0000, 0x0001, 0x0002, 0x0003, 0x0004, 0x0005, 0x0006, 0x0007,
    0x0008, 0x0009, 0x000A, 0x000B, 0x000C, 0x000D, 0x000E, 0x000F,
    0x0010, 0x0011, 0x0012, 0x0013, 0x0014, 0x0015, 0x0016, 0x0017,
    0x0018, 0x0019, 0x001A, 0x001B, 0x001C, 0x001D, 0x001E, 0x001F,
    0x0020, 0x0021, 0x0022, 0x0023, 0x0024, 0x0025, 0x0026, 0x0027,
    0x0028, 0x0029, 0x002A, 0x002B, 0x002C, 0x002D, 0x002E, 0x002F,
    0x0030, 0x0031, 0x0032, 0x0033, 0x0034, 0x0035, 0x0036, 0x0037,
    0x0038, 0x0039, 0x003A, 0x003B, 0x003C, 0x003D, 0x003E, 0x003F,
    0x0040, 0x0041, 0x0042, 0x0043, 0x0044, 0x0045, 0x0046, 0x0047,
    0x0048, 0x0049, 0x004A, 0x004B, 0x004C, 0x004D, 0x004E, 0x004F,
    0x0050, 0x0051, 0x0052, 0x0053, 0x0054, 0x0055, 0x0056, 0x0057,
    0x0058, 0x0059, 0x005A, 0x005B, 0x005C, 0x005D, 0x005E, 0x005F,
    0x0060, 0x0061, 0x0062, 0x0063, 0x0064, 0x0065, 0x0066, 0x0067,
    0x0068, 0x0069, 0x006A, 0x006B, 0x006C, 0x006D, 0x006E, 0x006F,
    0x0070, 0x0071, 0x0072, 0x0073, 0x0074, 0x0075, 0x0076, 0x0077,
    0x0078, 0x0079, 0x007A, 0x007B, 0x007C, 0x007D, 0x007E, 0x007F,
    0x20AC, 0xFFFD, 0x201A, 0x0192, 0x201E, 0x2026, 0x2020, 0x2021,
    0x02C6, 0x2030, 0xFFFD, 0x2039, 0x0152, 0xFFFD, 0xFFFD, 0xFFFD,
    0xFFFD, 0x2018, 0x2019, 0x201C, 0x201D, 0x2022, 0x2013, 0x2014,
    0x02DC, 0x2122, 0xFFFD, 0x203A, 0x0153, 0xFFFD, 0xFFFD, 0x0178,
    0x00A0, 0x00A1, 0x00A2, 0x00A3, 0x00A4, 0x00A5, 0x00A6, 0x00A7,
    0x00A8, 0x00A9, 0x00AA, 0x00AB, 0x00AC, 0x00AD, 0x00AE, 0x00AF,
    0x00B0, 0x00B1, 0x00B2, 0x00B3, 0x00B4, 0x00B5, 0x00B6, 0x00B7,
    0x00B8, 0x00B9, 0x00BA, 0x00BB, 0x00BC, 0x00BD, 0x00BE, 0x00BF,
    0x00C0, 0x00C1, 0x00C2, 0x0102, 0x00C4, 0x00C5, 0x00C6, 0x00C7,
    0x00C8, 0x00C9, 0x00CA, 0x00CB, 0x0300, 0x00CD, 0x00CE, 0x00CF,
    0x0110, 0x00D1, 0x0309, 0x00D3, 0x00D4, 0x01A0, 0x00D6, 0x00D7,
    0x00D8, 0x00D9, 0x00DA, 0x00DB, 0x00DC, 0x01AF, 0x0303, 0x00DF,
    0x00E0, 0x00E1, 0x00E2, 0x0103, 0x00E4, 0x00E5, 0x00E6, 0x00E7,
    0x00E8, 0x00E9, 0x00EA, 0x00EB, 0x0301, 0x00ED, 0x00EE, 0x00EF,
    0x0111, 0x00F1, 0x0323, 0x00F3, 0x00F4, 0x01A1, 0x00F6, 0x00F7,
    0x00F8, 0x00F9, 0x00FA, 0x00FB, 0x00FC, 0x01B0, 0x20AB, 0x00FF]

/-- The body of the loop of `CP1258ToUTF8` (lines 217 to 221) for the byte `chr`; `none`
would be an index out of range. -/
def cp1258Step (utf8Txt : List Byte) (chr : Byte) : Option (List Byte) := do
  let r ← cp1258[chr.val]?
  if (encodeRune r).length > 0 then pure (utf8Txt ++ encodeRune r)
  else pure (utf8Txt ++ encodeRune chr.val)

/-- The function `CP1258ToUTF8(txt)`. -/
def CP1258ToUTF8 (txt : List Byte) : Option (List Byte) :=
  txt.foldlM cp1258Step []

/-- The code point of the table for a byte, as a character. -/
def cp1258Char (chr : Byte) : Char := Char.ofNat (cp1258.getD chr.val 0)

/-- The number of characters of a valid UTF-8 text, counted on its bytes: every byte that
is not a continuation byte (`80` to `BF`) starts one character. -/
def runeStarts (s : List Byte) : Nat := s.countP (fun b => b.val / 64 ≠ 2)


/-! ## The case tokenizer and the composers

`SnakeCase` and `KebabCase` call `snakecase.Snakecase` of an imported package whose source
is not among the sources of the repository; it is modelled here from sections 4.2 and 4.3
of the specification and from the tables of `texttools_test.go`. -/

/-- ASCII uppercase letter. -/
def isUpper (c : Byte) : Bool := 65 ≤ c.val && c.val ≤ 90

/-- ASCII lowercase letter. -/
def isLower (c : Byte) : Bool := 97 ≤ c.val && c.val ≤ 122

/-- ASCII digit. -/
def isDigit (c : Byte) : Bool := 48 ≤ c.val && c.val ≤ 57

/-- ASCII letter or digit. -/
def isWord (c : Byte) : Bool := isUpper c || isLower c || isDigit c

/-- The lowercase form of an ASCII letter; other bytes are unchanged. -/
def toLower (c : Byte) : Byte := if isUpper c then c + 32 else c

/-- Modelled from the spec: the states of the Case Tokenizer of section 4.2, missing with
the package `go-snakecase`.  The tokenizer stands after a separator (or at the start), in
the leading part
of a token (uppercase letters and digits), or in its trailing part (lowercase letters and
digits). -/
inductive TokenPhase where
  | separator
  | head
  | tail
  deriving DecidableEq, Repr

/-- Modelled from the spec: the end of a token in the Case Tokenizer of section 4.2,
missing with the package `go-snakecase`; an empty token is not kept. -/
def flushToken (cur : List Byte) : List (List Byte) := if cur = [] then [] else [cur]

/-- Modelled from the spec: the Case Tokenizer of section 4.2, implemented by the imported
package `go-snakecase`, whose source is missing.  The text is read byte by byte, `cur`
being the token read so far.  A byte that is not an ASCII letter or digit is a separator:
it closes the token and contributes nothing, so runs of separators, leading and trailing
ones included, give no empty token.  A token is a run of uppercase letters and digits
followed by a run of lowercase letters and digits, so an uppercase letter that follows
the lowercase part of a token starts a new token.  Tokens are lowercased.  A digit after a
letter stays in the token of the letter, as the rows `Base64Encode` of the test tables
require. -/
def tokenizeFrom : TokenPhase → List Byte → List Byte → List (List Byte)
  | _, cur, [] => flushToken cur
  | ph, cur, c :: cs =>
    if isWord c = false then flushToken cur ++ tokenizeFrom .separator [] cs
    else
      match ph with
      | .separator => tokenizeFrom (if isLower c then .tail else .head) [toLower c] cs
      | .head =>
        if isLower c then tokenizeFrom .tail (cur ++ [c]) cs
        else tokenizeFrom .head (cur ++ [toLower c]) cs
      | .tail =>
        if isUpper c then flushToken cur ++ tokenizeFrom .head [toLower c] cs
        else tokenizeFrom .tail (cur ++ [c]) cs

/-- Modelled from the spec: the token sequence of a text (section 4.2), missing with the
package `go-snakecase`. -/
def tokenize (str : List Byte) : List (List Byte) := tokenizeFrom .separator [] str

/-- Modelled from the spec: `snakecase.Snakecase`, the snake composer of section 4.3
(tokens joined with `_`), missing with the package `go-snakecase`. -/
def Snakecase (str : List Byte) : List Byte := joinWith 95 (tokenize str)

/-- The function `SnakeCase(str)`. -/
def SnakeCase (str : List Byte) : List Byte := Snakecase str

/-- The function `KebabCase(str)`: `strings.Replace(snakecase.Snakecase(str), "_", "-", -1)`. -/
def KebabCase (str : List Byte) : List Byte :=
  (Snakecase str).map (fun b => if b = 95 then 45 else b)

/-- The function `Slug(str)`. -/
def Slug (str : List Byte) : List Byte := KebabCase (SpecialCharsToStandard str)

/-- The rows of `TestSnakeCase`. -/
def snakeCaseSamples : List (String × String) :=
  [("sample text", "sample_text"), ("sample-text", "sample_text"),
   ("sample_text", "sample_text"), ("sample___text", "sample_text"),
   ("sampleText", "sample_text"),
   ("inviteYourCustomersAddInvites", "invite_your_customers_add_invites"),
   ("sample 2 Text", "sample_2_text"), ("   sample   2    Text   ", "sample_2_text"),
   ("   $#$sample   2    Text   ", "sample_2_text"), ("SAMPLE 2 TEXT", "sample_2_text"),
   ("___$$Base64Encode", "base64_encode"), ("---$$Base64-_-_-Encode", "base64_encode"),
   ("FOO:BAR$BAZ", "foo_bar_baz"), ("FOO#BAR#BAZ", "foo_bar_baz"),
   ("something.com", "something_com"), ("$something%", "something"),
   ("something.com", "something_com"), ("•¶§ƒ˚foo˙∆˚¬", "foo")]

/-- The rows of `TestSlug`. -/
def slugSamples : List (String × String) :=
  [("sample text", "sample-text"), ("sample-text", "sample-text"),
   ("sample_text", "sample-text"), ("sample___text", "sample-text"),
   ("sampleText", "sample-text"),
   ("inviteYourCustomersAddInvites", "invite-your-customers-add-invites"),
   ("sample 2 Text", "sample-2-text"), ("   sample   2    Text   ", "sample-2-text"),
   ("   $#$sample   2    Text   ", "sample-2-text"), ("SAMPLE 2 TEXT", "sample-2-text"),
   ("___$$Base64Encode", "base64-encode"), ("---$$Base64-_-_-Encode", "base64-encode"),
   ("FOO:BAR$BAZ", "foo-bar-baz"), ("FOO#BAR#BAZ", "foo-bar-baz"),
   ("something.com", "something-com"), ("$something%", "something"),
   ("something.com", "something-com"), ("•¶§ƒ˚foo˙∆˚¬", "foo"), ("æøåäò", "aeoaao")]

/-- The characters of a token, and of a slug apart from the separator: `a-z` and `0-9`. -/
def isSlugChar (c : Byte) : Bool := isLower c || isDigit c


/-! ## The camel composer, `PascalCase` and `UnCase` -/

/-- The uppercase form of an ASCII letter; other bytes are unchanged. -/
def toUpperByte (c : Byte) : Byte := if isLower c then c - 32 else c

/-- The function `strings.ToUpper` of the Go library on the texts it is called with here,
which have one byte: ASCII letters are uppercased, other ASCII bytes are unchanged, and a
byte from `80` on, which is no valid UTF-8, becomes U+FFFD.  It is exact on ASCII texts of
any length. -/
def ToUpper (s : List Byte) : List Byte :=
  s.flatMap (fun c => if c.val < 128 then [toUpperByte c] else [0xEF, 0xBF, 0xBD])

/-- Modelled from the spec: where the camel mode of `go-camelcase`, an imported package
whose source is missing, stands in a text: between tokens, in a run of digits, in the
uppercase letters at the start of a word, or in the lowercase letters that end a word. -/
inductive CamelPhase where
  | start
  | digits
  | uppers
  | lowers
  deriving DecidableEq, Repr

/-- Modelled from the spec: the start of a token in the camel mode of sections 4.2 and
4.3, missing with the package `go-camelcase`.  A byte that is no ASCII letter or digit is
a separator and is passed over; a digit starts a run of digits, which in this mode is a
token of its own; a letter starts a word and is written capitalized. -/
def camelStart (c : Byte) : Option Byte × CamelPhase :=
  if isWord c = false then (none, .start)
  else if isDigit c then (some c, .digits)
  else if isUpper c then (some c, .uppers)
  else (some (toUpperByte c), .lowers)

/-- Modelled from the spec: one byte of the camel mode (sections 4.2 and 4.3), missing
with the package `go-camelcase`: the byte written, if any, and the next phase.  A run of
digits takes digits; a word takes the uppercase letters that follow its first uppercase
letter, written in lowercase, and then lowercase letters; any other byte ends the token
and is read as the start of the next one. -/
def camelStep : CamelPhase → Byte → Option Byte × CamelPhase
  | .start, c => camelStart c
  | .digits, c => if isDigit c then (some c, .digits) else camelStart c
  | .uppers, c =>
    if isUpper c then (some (toLower c), .uppers)
    else if isLower c then (some c, .lowers)
    else camelStart c
  | .lowers, c => if isLower c then (some c, .lowers) else camelStart c

/-- Modelled from the spec: the camel mode of sections 4.2 and 4.3 before the first
character is lowercased, missing with the package `go-camelcase`: the tokens, every word
capitalized, concatenated without a separator. -/
def camelScan : CamelPhase → List Byte → List Byte
  | _, [] => []
  | ph, c :: cs =>
    match camelStep ph c with
    | (some b, ph1) => b :: camelScan ph1 cs
    | (none, ph1) => camelScan ph1 cs

/-- A text with its first byte in lowercase. -/
def lowerFirst : List Byte → List Byte
  | [] => []
  | c :: cs => toLower c :: cs

/-- Modelled from the spec: `camelcase.Camelcase`, the camel mode of section 4.3, missing
with the package `go-camelcase`: the first token in lowercase, the following tokens
capitalized, no separator.  In this mode a run of digits is a token of its own, so a
letter after a digit starts a word and is capitalized. -/
def Camelcase (str : List Byte) : List Byte := lowerFirst (camelScan .start str)

/-- The function `CamelCase(str)`. -/
def CamelCase (str : List Byte) : List Byte := Camelcase str

/-- The function `PascalCase(str)`; `none` would be a slice out of range. -/
def PascalCase (str : List Byte) : Option (List Byte) :=
  let out := Camelcase str
  if out.length > 0 then do
    let first ← sliceBytes out 0 1
    let rest ← sliceBytes out 1 out.length
    pure (ToUpper first ++ rest)
  else pure out

/-- The function `UnCase(str)`; `none` is a slice out of range. -/
def UnCase (str : List Byte) : Option (List Byte) :=
  let str := (Snakecase str).map (fun b => if b = 95 then 32 else b)
  do
    let first ← sliceBytes str 0 1
    let rest ← sliceBytes str 1 str.length
    pure (ToUpper first ++ rest)

/-- The rows of `TestCamelCase`. -/
def camelCaseSamples : List (String × String) :=
  [("sample text", "sampleText"), ("sample-text", "sampleText"),
   ("sample_text", "sampleText"), ("sample___text", "sampleText"),
   ("sampleText", "sampleText"),
   ("inviteYourCustomersAddInvites", "inviteYourCustomersAddInvites"),
   ("sample 2 Text", "sample2Text"), ("   sample   2    Text   ", "sample2Text"),
   ("   $#$sample   2    Text   ", "sample2Text"), ("SAMPLE 2 TEXT", "sample2Text"),
   ("___$$Base64Encode", "base64Encode"), ("---$$Base64-_-_-Encode", "base64Encode"),
   ("FOO:BAR$BAZ", "fooBarBaz"), ("FOO#BAR#BAZ", "fooBarBaz"),
   ("something.com", "somethingCom"), ("$something%", "something"),
   ("something.com", "somethingCom"), ("•¶§ƒ˚foo˙∆˚¬", "foo")]

/-- The rows of `TestPascalCase`. -/
def pascalCaseSamples : List (String × String) :=
  [("sample text", "SampleText"), ("sample-text", "SampleText"),
   ("sample_text", "SampleText"), ("sample___text", "SampleText"),
   ("sampleText", "SampleText"),
   ("inviteYourCustomersAddInvites", "InviteYourCustomersAddInvites"),
   ("sample 2 Text", "Sample2Text"), ("   sample   2    Text   ", "Sample2Text"),
   ("   $#$sample   2    Text   ", "Sample2Text"), ("SAMPLE 2 TEXT", "Sample2Text"),
   ("___$$Base64Encode", "Base64Encode"), ("---$$Base64-_-_-Encode", "Base64Encode"),
   ("FOO:BAR$BAZ", "FooBarBaz"), ("FOO#BAR#BAZ", "FooBarBaz"),
   ("something.com", "SomethingCom"), ("$something%", "Something"),
   ("something.com", "SomethingCom"), ("•¶§ƒ˚foo˙∆˚¬", "Foo")]

/-- The rows of `TestUnCase`. -/
def unCaseSamples : List (String × String) :=
  [("sample text", "Sample text"), ("sample-text", "Sample text"),
   ("sample_text", "Sample text"), ("sample___text", "Sample text"),
   ("sampleText", "Sample text"),
   ("inviteYourCustomersAddInvites", "Invite your customers add invites"),
   ("sample 2 Text", "Sample 2 text"), ("   sample   2    Text   ", "Sample 2 text"),
   ("   $#$sample   2    Text   ", "Sample 2 text"), ("SAMPLE 2 TEXT", "Sample 2 text"),
   ("___$$Base64Encode", "Base64 encode"), ("---$$Base64-_-_-Encode", "Base64 encode"),
   ("FOO:BAR$BAZ", "Foo bar baz"), ("FOO#BAR#BAZ", "Foo bar baz"),
   ("something.com", "Something com"), ("$something%", "Something"),
   ("something.com", "Something com"), ("•¶§ƒ˚foo˙∆˚¬", "Foo")]

/-- Results of the camel mode on letters that follow digits: `CamelCase` of the first text
is the second, `PascalCase` of the first text is the third. -/
def camelDigitSamples : List (String × String × String) :=
  [("1a", "1A", "1A"), ("1A", "1A", "1A"), ("base64encode", "base64Encode", "Base64Encode"),
   ("a1b", "a1B", "A1B")]

/-! ## RandomString -/

/-- The constant `possibleChars` (line 15). -/
def possibleChars : List Byte :=
  bytesOf "abcdefghijklmnopqrstuvwxyzABCDEFGHIJKLMNOPQRSTUVWXYZ0123456789"

/-- The function `RandomString(n)` over a source of random numbers: `draw i` is the value
that the call of `rand.Int(rand.Reader, max)` in round `i` of the loop returns.  `none` is
a run-time failure: a negative length for `make`, or an index out of range. -/
def RandomString (draw : Nat → Nat) (n : Int) : Option (List Byte) :=
  if n < 0 then none
  else (List.range n.toNat).mapM (fun i => possibleChars[draw i]?)


/-! ## Normal form and replacement characters -/

/-- A text in the form that the three preparation steps of `Shorten` leave: its only
whitespace is the space, no space stands before a space or before one of `. , ; ! ?`, and
it neither begins nor ends with a space. -/
def Normalized (x : List Byte) : Prop :=
  (∀ b ∈ x, isSpace b = true → b = 32) ∧
    List.Chain' (fun a b => ¬ (a = 32 ∧ (b = 32 ∨ isPunct b = true))) x ∧
    x.head? ≠ some 32 ∧ x.getLast? ≠ some 32

/-- The replacement of one character as characters: the characters of the new string of
the first pair whose old string is this character, and the character itself when there is
no such pair. -/
def transliterateChars (c : Char) : List Char :=
  match specialCharsPairs.find? (fun p => bytesOf p.1 = encodeRune c.toNat) with
  | some p => p.2.toList
  | none => [c]

set_option maxRecDepth 100000

/-! ## The test tables -/

/-- The embedding of `Shorten` reproduces every row of `TestShortenWithAppend` and of
`TestShortenWithoutAppend`. -/
theorem Shorten_samples :
    shortenWithAppendSamples.all
        (fun p => Shorten (bytesOf p.1) 20 (bytesOf "...") = some (bytesOf p.2)) = true ∧
      shortenWithoutAppendSamples.all
        (fun p => Shorten (bytesOf p.1) 20 (bytesOf "") = some (bytesOf p.2)) = true := by
  constructor <;> decide

/-! ## Slices -/

theorem sliceBytes_take (s : List Byte) (n : Int) (h0 : 0 ≤ n) (h1 : n ≤ (s.length : Int)) :
    sliceBytes s 0 n = some (s.take n.toNat) := by
  unfold sliceBytes
  rw [if_pos ⟨le_refl _, h0, h1⟩]
  simp

theorem sliceBytes_dropLast (s : List Byte) (h : s ≠ []) :
    sliceBytes s 0 ((s.length : Int) - 1) = some s.dropLast := by
  have hl : 0 < s.length := List.length_pos.mpr h
  rw [sliceBytes_take s _ (by omega) (by omega)]
  have : ((s.length : Int) - 1).toNat = s.length - 1 := by omega
  rw [this, List.dropLast_eq_take]

theorem sliceBytes_last (s : List Byte) (h : s ≠ []) :
    sliceBytes s ((s.length : Int) - 1) s.length = some [s.getLast h] := by
  have hl : 0 < s.length := List.length_pos.mpr h
  unfold sliceBytes
  rw [if_pos ⟨by omega, by omega, le_refl _⟩]
  have h1 : ((s.length : Int) - 1).toNat = s.length - 1 := by omega
  have h2 : ((s.length : Nat) : Int).toNat = s.length := by omega
  have h3 := List.dropLast_append_getLast h
  have h4 : s.dropLast.length = s.length - 1 := List.length_dropLast s
  have h5 : s.drop (s.length - 1) = [s.getLast h] := by
    calc s.drop (s.length - 1)
        = (s.dropLast ++ [s.getLast h]).drop s.dropLast.length := by rw [h3, h4]
      _ = [s.getLast h] := List.drop_left _ _
  rw [h1, h2, List.take_length, h5]

/-! ## The accumulation loop -/

theorem accumulate_bound (length : Int) (appendStr : List Byte) (parts : List (List Byte)) :
    ∀ shorter : List Byte,
      (shorter = [] ∨ (shorter.length : Int) + appendStr.length ≤ length) →
      (accumulate length appendStr shorter parts = [] ∨
        ((accumulate length appendStr shorter parts).length : Int) + appendStr.length ≤ length) := by
  induction parts with
  | nil => intro shorter h; simpa [accumulate] using h
  | cons part parts ih =>
    intro shorter h
    unfold accumulate
    split
    · exact ih shorter h
    · split
      · apply ih
        right
        split <;> simp only [List.length_append, List.length_singleton] <;> push_cast <;> omega
      · exact h

theorem reconcile_bound (shorter appendStr : List Byte) :
    ∃ r, reconcile shorter appendStr = some r ∧ r.length ≤ shorter.length + appendStr.length := by
  unfold reconcile
  by_cases hc : shorter.length > 0 ∧ appendStr.length > 0
  · have hs : shorter ≠ [] := List.length_pos.mp hc.1
    have ha : appendStr ≠ [] := List.length_pos.mp hc.2
    rw [if_pos hc, sliceBytes_last shorter hs]
    simp only [Option.bind_eq_bind, Option.some_bind, sliceBytes_dropLast shorter hs,
      sliceBytes_dropLast appendStr ha]
    split
    · exact ⟨_, rfl, by simp⟩
    · split
      · exact ⟨_, rfl, by simp⟩
      · exact ⟨_, rfl, by simp⟩
  · rw [if_neg hc]
    exact ⟨_, rfl, by simp⟩

theorem int64SubLen_eq (a : Int) (n : Nat) (h : -9223372036854775808 ≤ a - (n : Int)) :
    int64SubLen a n = a - (n : Int) := by
  unfold int64SubLen
  rw [if_neg (by omega)]

theorem kept_bound (str appendStr : List Byte) (length : Int)
    (h1 : (appendStr.length : Int) ≤ length) (h2 : length < (str.length : Int)) :
    ∃ k, kept str length appendStr = some k ∧ (k.length : Int) + appendStr.length ≤ length := by
  unfold kept
  simp only
  rw [int64SubLen_eq _ _ (by omega)]
  split
  · rw [sliceBytes_take str _ (by omega) (by omega)]
    refine ⟨_, rfl, ?_⟩
    rw [List.length_take]
    omega
  · rename_i hne
    refine ⟨_, rfl, ?_⟩
    rcases accumulate_bound length appendStr (splitSpaces str) [] (Or.inl rfl) with h | h
    · exact absurd h hne
    · exact h

theorem Shorten_some_le (s appendStr : List Byte) (length : Int)
    (h : (appendStr.length : Int) ≤ length) :
    ∃ r, Shorten s length appendStr = some r ∧ (r.length : Int) ≤ length := by
  unfold Shorten
  simp only
  split
  · rename_i hle
    exact ⟨_, rfl, hle⟩
  · rename_i hgt
    obtain ⟨k, hk, hkl⟩ := kept_bound (normalize s) appendStr length h (by omega)
    obtain ⟨r, hr, hrl⟩ := reconcile_bound k appendStr
    refine ⟨r, ?_, by omega⟩
    rw [hk]
    simpa using hr

theorem reconcile_eq (k suffix : List Byte) :
    reconcile k suffix = some
      (if suffix ≠ [] ∧ (k.getLast? = some 46 ∨ k.getLast? = some 44 ∨ k.getLast? = some 59) then
        k.dropLast ++ suffix
      else if suffix ≠ [] ∧ (k.getLast? = some 63 ∨ k.getLast? = some 33) then
        k ++ suffix.dropLast
      else k ++ suffix) := by
  unfold reconcile
  by_cases hk : k = []
  · subst hk
    simp
  by_cases ha : suffix = []
  · subst ha
    simp
  have hc : k.length > 0 ∧ suffix.length > 0 :=
    ⟨List.length_pos.mpr hk, List.length_pos.mpr ha⟩
  rw [if_pos hc, sliceBytes_last k hk]
  simp only [Option.bind_eq_bind, Option.some_bind, sliceBytes_dropLast k hk,
    sliceBytes_dropLast suffix ha, List.getLast?_eq_getLast k hk, Option.some.injEq,
    List.cons.injEq, and_true, ne_eq, ha, not_false_eq_true, true_and]
  split <;> [rfl; (split <;> rfl)]

/-! ## Whole words -/

theorem accumulate_filter (length : Int) (appendStr : List Byte) (parts : List (List Byte)) :
    ∀ shorter : List Byte,
      accumulate length appendStr shorter parts =
        accumulate length appendStr shorter (parts.filter (fun p => p ≠ [])) := by
  induction parts with
  | nil => intro shorter; rfl
  | cons part parts ih =>
    intro shorter
    by_cases hp : part = []
    · subst hp
      simp [accumulate, ih]
    · simp only [ne_eq, hp, not_false_eq_true, decide_True, List.filter_cons_of_pos]
      unfold accumulate
      simp only [hp, if_false]
      split
      · exact ih _
      · rfl

theorem joinWith_snoc (sep : Byte) (w : List Byte) (done : List (List Byte)) (h : done ≠ []) :
    joinWith sep (done ++ [w]) = joinWith sep done ++ sep :: w := by
  induction done with
  | nil => exact absurd rfl h
  | cons d ds ih =>
    cases ds with
    | nil => simp [joinWith]
    | cons e es =>
      have := ih (by simp)
      simp only [List.cons_append, joinWith] at this ⊢
      simp [this]

theorem joinWords_snoc (w : List Byte) (done : List (List Byte)) (h : done ≠ []) :
    joinWords (done ++ [w]) = joinWords done ++ 32 :: w :=
  joinWith_snoc 32 w done h

theorem joinWords_length_pos (done : List (List Byte)) (h : done ≠ [])
    (hne : ∀ w ∈ done, w ≠ []) : 0 < (joinWords done).length := by
  cases done with
  | nil => exact absurd rfl h
  | cons d ds =>
    have hd : 0 < d.length := List.length_pos.mpr (hne d (by simp))
    cases ds with
    | nil => simpa [joinWith] using hd
    | cons e es => simp [joinWith]

theorem accumulate_words (length : Int) (appendStr : List Byte) (rest : List (List Byte)) :
    ∀ done : List (List Byte), done ≠ [] → (∀ w ∈ done, w ≠ []) → (∀ w ∈ rest, w ≠ []) →
      ∃ j, j ≤ rest.length ∧
        accumulate length appendStr (joinWords done) rest = joinWords (done ++ rest.take j) ∧
        (j < rest.length →
          length < ((joinWords (done ++ rest.take (j + 1))).length : Int) + appendStr.length) := by
  induction rest with
  | nil =>
    intro done _ _ _
    exact ⟨0, le_refl _, by simp [accumulate], by simp⟩
  | cons w rest ih =>
    intro done hd hdne hrne
    have hw : w ≠ [] := hrne w (by simp)
    have hpos := joinWords_length_pos done hd hdne
    unfold accumulate
    simp only [hw, if_false]
    split
    · rename_i hfit
      have hd2 : done ++ [w] ≠ [] := by simp
      have hdne2 : ∀ x ∈ done ++ [w], x ≠ [] := by
        intro x hx
        rcases List.mem_append.mp hx with h | h
        · exact hdne x h
        · rw [List.mem_singleton.mp h]; exact hw
      obtain ⟨j, hj, hacc, hmax⟩ :=
        ih (done ++ [w]) hd2 hdne2 (fun x hx => hrne x (List.mem_cons_of_mem _ hx))
      refine ⟨j + 1, by simp; omega, ?_, ?_⟩
      · rw [List.append_assoc, List.singleton_append, ← joinWords_snoc w done hd, hacc]
        simp
      · intro hlt
        have := hmax (by simpa using hlt)
        simpa using this
    · rename_i hfit
      refine ⟨0, Nat.zero_le _, by simp, ?_⟩
      intro _
      simp only [zero_add, List.take_succ_cons, List.take_zero, joinWords_snoc w done hd,
        List.length_append, List.length_cons]
      push_cast
      omega

/-! ## Texts without whitespace, and texts of whitespace only -/

theorem reLinesAndCharsScan_of_no_space (s : List Byte) (h : ∀ b ∈ s, isSpace b = false) :
    ∀ inMatch, reLinesAndCharsScan inMatch s = s := by
  induction s with
  | nil => intro _; rfl
  | cons c cs ih =>
    intro inMatch
    have hc : isSpace c = false := h c (by simp)
    simp [reLinesAndCharsScan, hc, ih (fun b hb => h b (List.mem_cons_of_mem _ hb))]

theorem reSpaceBeforePunctuationReplace_of_no_space (s : List Byte)
    (h : ∀ b ∈ s, isSpace b = false) : reSpaceBeforePunctuationReplace s = s := by
  induction s with
  | nil => rfl
  | cons c cs ih =>
    have hc : isSpace c = false := h c (by simp)
    simp [reSpaceBeforePunctuationReplace, hc, ih (fun b hb => h b (List.mem_cons_of_mem _ hb))]

theorem isSpace_false_ne (b : Byte) (h : isSpace b = false) : b ≠ 32 := by
  intro hb
  subst hb
  exact absurd h (by decide)

theorem dropWhile_of_none (p : Byte → Bool) (s : List Byte) (h : ∀ b ∈ s, p b = false) :
    s.dropWhile p = s := by
  cases s with
  | nil => rfl
  | cons c cs => simp [List.dropWhile, h c (by simp)]

theorem trimSpaces_of_no_space (s : List Byte) (h : ∀ b ∈ s, isSpace b = false) :
    trimSpaces s = s := by
  have h32 : ∀ b ∈ s, (fun b : Byte => decide (b = 32)) b = false := by
    intro b hb
    simpa using isSpace_false_ne b (h b hb)
  unfold trimSpaces
  rw [dropWhile_of_none _ s h32, dropWhile_of_none _ s.reverse, List.reverse_reverse]
  intro b hb
  exact h32 b (List.mem_reverse.mp hb)

theorem normalize_of_no_space (s : List Byte) (h : ∀ b ∈ s, isSpace b = false) :
    normalize s = s := by
  unfold normalize reLinesAndCharsReplace
  rw [reLinesAndCharsScan_of_no_space s h, reSpaceBeforePunctuationReplace_of_no_space s h,
    trimSpaces_of_no_space s h]

theorem splitSpaces_of_no_space (s : List Byte) (h : ∀ b ∈ s, isSpace b = false) :
    splitSpaces s = [s] := by
  induction s with
  | nil => rfl
  | cons c cs ih =>
    have hc : c ≠ 32 := isSpace_false_ne c (h c (by simp))
    simp [splitSpaces, hc, ih (fun b hb => h b (List.mem_cons_of_mem _ hb))]

theorem reLinesAndCharsScan_of_all_space (s : List Byte) (h : ∀ b ∈ s, isSpace b = true) :
    reLinesAndCharsScan true s = [] ∧
      (reLinesAndCharsScan false s = [] ∨ reLinesAndCharsScan false s = [32]) := by
  induction s with
  | nil => exact ⟨rfl, Or.inl rfl⟩
  | cons c cs ih =>
    have hc : isSpace c = true := h c (by simp)
    have := ih (fun b hb => h b (List.mem_cons_of_mem _ hb))
    simp [reLinesAndCharsScan, hc, this.1]

theorem normalize_of_all_space (s : List Byte) (h : ∀ b ∈ s, isSpace b = true) :
    normalize s = [] := by
  unfold normalize reLinesAndCharsReplace
  rcases (reLinesAndCharsScan_of_all_space s h).2 with h0 | h1
  · rw [h0]; decide
  · rw [h1]; decide

/-! ## The claims on `Shorten` -/

/-- C1: for every text, every suffix and every `maxLen` with `maxLen >= len(suffix)`,
`Shorten` returns a text whose byte length is at most `maxLen`. -/
theorem Shorten_length_le (s suffix : List Byte) (maxLen : Int)
    (h : (suffix.length : Int) ≤ maxLen) :
    ∃ r, Shorten s maxLen suffix = some r ∧ (r.length : Int) ≤ maxLen :=
  Shorten_some_le s suffix maxLen h

/-- Witness of C1 on the third row of `TestShortenWithAppend`. -/
theorem Shorten_length_le_witness :
    ((bytesOf "...").length : Int) ≤ 20 ∧
      ∃ r, Shorten (bytesOf "sampleTextThatIsTooLongWithNoSpaces") 20 (bytesOf "...") = some r ∧
        (r.length : Int) ≤ 20 :=
  ⟨by decide, Shorten_length_le _ _ 20 (by decide)⟩

/-- C2: when the text left by the three preparation steps (whitespace runs collapsed to
one space, whitespace before punctuation removed, surrounding spaces trimmed) is at most
`maxLen` bytes long, `Shorten` returns exactly that text and appends no suffix. -/
theorem Shorten_short_circuit (s suffix : List Byte) (maxLen : Int)
    (h : ((normalize s).length : Int) ≤ maxLen) :
    Shorten s maxLen suffix =
      some (trimSpaces (reSpaceBeforePunctuationReplace (reLinesAndCharsReplace s))) := by
  unfold Shorten
  simp only
  rw [if_pos h]
  rfl

/-- Witness of C2 on the second row of `TestShortenWithAppend`. -/
theorem Shorten_short_circuit_witness :
    ((normalize (bytesOf "sample text")).length : Int) ≤ 20 ∧
      Shorten (bytesOf "sample text") 20 (bytesOf "...") =
        some (trimSpaces (reSpaceBeforePunctuationReplace
          (reLinesAndCharsReplace (bytesOf "sample text")))) :=
  ⟨by decide, Shorten_short_circuit _ _ 20 (by decide)⟩

/-- C3: when `Shorten` truncates, with `kept` the accumulated words or the fallback
substring: a non-empty suffix after a kept text ending in `.`, `,` or `;` gives the kept
text without its last byte followed by the whole suffix; a non-empty suffix after a kept
text ending in `?` or `!` gives the kept text followed by the suffix without its last
byte; every other case gives the kept text followed by the whole suffix. -/
theorem Shorten_punctuation (s suffix : List Byte) (maxLen : Int)
    (h1 : (suffix.length : Int) ≤ maxLen) (h2 : maxLen < ((normalize s).length : Int)) :
    ∃ k, kept (normalize s) maxLen suffix = some k ∧
      Shorten s maxLen suffix = some
        (if suffix ≠ [] ∧
            (k.getLast? = some 46 ∨ k.getLast? = some 44 ∨ k.getLast? = some 59) then
          k.dropLast ++ suffix
        else if suffix ≠ [] ∧ (k.getLast? = some 63 ∨ k.getLast? = some 33) then
          k ++ suffix.dropLast
        else k ++ suffix) := by
  obtain ⟨k, hk, _⟩ := kept_bound (normalize s) suffix maxLen h1 h2
  refine ⟨k, hk, ?_⟩
  unfold Shorten
  simp only
  rw [if_neg (by omega), hk]
  simpa using reconcile_eq k suffix

/-- Witness of C3 on the fifth row of `TestShortenWithAppend` (the kept text ends in `?`). -/
theorem Shorten_punctuation_witness :
    ((bytesOf "...").length : Int) ≤ 20 ∧
      (20 : Int) < ((normalize (bytesOf "sample text that? I don't know...")).length : Int) ∧
      ∃ k, kept (normalize (bytesOf "sample text that? I don't know...")) 20 (bytesOf "...")
          = some k ∧
        Shorten (bytesOf "sample text that? I don't know...") 20 (bytesOf "...") = some
          (if bytesOf "..." ≠ [] ∧
              (k.getLast? = some 46 ∨ k.getLast? = some 44 ∨ k.getLast? = some 59) then
            k.dropLast ++ bytesOf "..."
          else if bytesOf "..." ≠ [] ∧ (k.getLast? = some 63 ∨ k.getLast? = some 33) then
            k ++ (bytesOf "...").dropLast
          else k ++ bytesOf "...") :=
  ⟨by decide, by decide, Shorten_punctuation _ _ 20 (by decide) (by decide)⟩

/-- C4: when `Shorten` truncates and the first word fits together with the suffix, the
kept text is the first `k` words joined by single spaces for some `k >= 1`, and `k` is
maximal: when a further word exists, the first `k + 1` words joined by single spaces and
followed by the suffix are longer than `maxLen` bytes. -/
theorem Shorten_whole_words (s suffix w1 : List Byte) (maxLen : Int)
    (htrunc : maxLen < ((normalize s).length : Int))
    (hw1 : (words (normalize s)).head? = some w1)
    (hfit : (w1.length : Int) + suffix.length < maxLen) :
    ∃ k, 1 ≤ k ∧ k ≤ (words (normalize s)).length ∧
      kept (normalize s) maxLen suffix = some (joinWords ((words (normalize s)).take k)) ∧
      Shorten s maxLen suffix = reconcile (joinWords ((words (normalize s)).take k)) suffix ∧
      (k < (words (normalize s)).length →
        maxLen < ((joinWords ((words (normalize s)).take (k + 1)) ++ suffix).length : Int)) := by
  have hall : ∀ w ∈ words (normalize s), w ≠ [] := by
    intro w hw
    simpa using (List.mem_filter.mp hw).2
  obtain ⟨ws, hws⟩ : ∃ ws, words (normalize s) = w1 :: ws := by
    cases hwd : words (normalize s) with
    | nil => rw [hwd] at hw1; simp at hw1
    | cons a as =>
      rw [hwd] at hw1
      simp only [List.head?_cons, Option.some.injEq] at hw1
      exact ⟨as, by rw [hw1]⟩
  rw [hws] at hall
  have hw1ne : w1 ≠ [] := hall w1 (by simp)
  have hacc : accumulate maxLen suffix [] (splitSpaces (normalize s)) =
      accumulate maxLen suffix (joinWords [w1]) ws := by
    rw [accumulate_filter]
    have : (splitSpaces (normalize s)).filter (fun p => p ≠ []) = w1 :: ws := hws
    rw [this]
    conv_lhs => unfold accumulate
    simp only [hw1ne, if_false, List.length_nil, Nat.cast_zero, zero_add, hfit, if_true,
      gt_iff_lt, lt_self_iff_false, List.nil_append, joinWords, joinWith]
  obtain ⟨j, hj, hjacc, hjmax⟩ := accumulate_words maxLen suffix ws [w1] (by simp)
    (by intro w hw; rw [List.mem_singleton.mp hw]; exact hw1ne)
    (fun w hw => hall w (List.mem_cons_of_mem _ hw))
  have hpos : 0 < (joinWords ([w1] ++ ws.take j)).length :=
    joinWords_length_pos _ (by simp) (by
      intro w hw
      rcases List.mem_append.mp hw with h | h
      · rw [List.mem_singleton.mp h]; exact hw1ne
      · exact hall w (List.mem_cons_of_mem _ (List.mem_of_mem_take h)))
  have hkept : kept (normalize s) maxLen suffix = some (joinWords ([w1] ++ ws.take j)) := by
    unfold kept
    simp only
    rw [hacc, hjacc, if_neg (List.length_pos.mp hpos)]
  rw [hws]
  refine ⟨j + 1, by omega, by simp; omega, by simpa using hkept, ?_, ?_⟩
  · unfold Shorten
    simp only
    rw [if_neg (by omega), hkept]
    simp
  · intro hlt
    have := hjmax (by simpa using hlt)
    simp only [List.length_append]
    push_cast
    simpa using this

/-- Witness of C4 on the eighth row of `TestShortenWithAppend`: three words are kept. -/
theorem Shorten_whole_words_witness :
    ∃ k, 1 ≤ k ∧ k ≤ (words (normalize (bytesOf
        "sample text\r\n \r\n\r\n   \r\n\r\n  that has lots of space like chars"))).length ∧
      kept (normalize (bytesOf
        "sample text\r\n \r\n\r\n   \r\n\r\n  that has lots of space like chars")) 20
          (bytesOf "...") = some (joinWords ((words (normalize (bytesOf
        "sample text\r\n \r\n\r\n   \r\n\r\n  that has lots of space like chars"))).take k)) ∧
      Shorten (bytesOf "sample text\r\n \r\n\r\n   \r\n\r\n  that has lots of space like chars")
          20 (bytesOf "...") = reconcile (joinWords ((words (normalize (bytesOf
        "sample text\r\n \r\n\r\n   \r\n\r\n  that has lots of space like chars"))).take k))
          (bytesOf "...") ∧
      (k < (words (normalize (bytesOf
        "sample text\r\n \r\n\r\n   \r\n\r\n  that has lots of space like chars"))).length →
        (20 : Int) < ((joinWords ((words (normalize (bytesOf
        "sample text\r\n \r\n\r\n   \r\n\r\n  that has lots of space like chars"))).take (k + 1))
          ++ bytesOf "...").length : Int)) :=
  Shorten_whole_words
    (bytesOf "sample text\r\n \r\n\r\n   \r\n\r\n  that has lots of space like chars")
    (bytesOf "...") (bytesOf "sample") 20 (by decide) (by decide) (by decide)

/-- C5: for a text without whitespace and without `. , ; ! ?` that is longer than
`maxLen >= len(suffix)`, `Shorten` returns the first `maxLen - len(suffix)` bytes of the
text followed by the suffix, a result of exactly `maxLen` bytes. -/
theorem Shorten_fallback (s suffix : List Byte) (maxLen : Int)
    (hs : ∀ b ∈ s, isSpace b = false ∧ isPunct b = false)
    (h1 : (suffix.length : Int) ≤ maxLen) (h2 : maxLen < (s.length : Int)) :
    Shorten s maxLen suffix = some (s.take (maxLen - suffix.length).toNat ++ suffix) ∧
      ((s.take (maxLen - suffix.length).toNat ++ suffix).length : Int) = maxLen := by
  have hsp : ∀ b ∈ s, isSpace b = false := fun b hb => (hs b hb).1
  have hne : s ≠ [] := by
    intro h
    rw [h] at h2
    simp at h2
    omega
  have hkept : kept s maxLen suffix = some (s.take (maxLen - suffix.length).toNat) := by
    unfold kept
    simp only
    rw [splitSpaces_of_no_space s hsp]
    have : accumulate maxLen suffix [] [s] = [] := by
      unfold accumulate
      simp only [hne, if_false, List.length_nil, Nat.cast_zero, zero_add]
      rw [if_neg (by omega)]
    rw [this, if_pos rfl, int64SubLen_eq _ _ (by omega),
      sliceBytes_take s _ (by omega) (by omega)]
  have hlast : ∀ x : Byte, (s.take (maxLen - suffix.length).toNat).getLast? = some x →
      isPunct x = false := by
    intro x hx
    exact (hs x (List.mem_of_mem_take (List.mem_of_getLast?_eq_some hx))).2
  constructor
  · unfold Shorten
    simp only
    rw [normalize_of_no_space s hsp, if_neg (by omega), hkept]
    simp only [Option.bind_eq_bind, Option.some_bind, reconcile_eq, Option.some.injEq]
    rw [if_neg, if_neg]
    · rintro ⟨_, h | h⟩ <;> exact absurd (hlast _ h) (by decide)
    · rintro ⟨_, h | h | h⟩ <;> exact absurd (hlast _ h) (by decide)
  · rw [List.length_append, List.length_take]
    push_cast
    omega

/-- Witness of C5 on the third row of `TestShortenWithAppend`. -/
theorem Shorten_fallback_witness :
    Shorten (bytesOf "sampleTextThatIsTooLongWithNoSpaces") 20 (bytesOf "...") =
        some ((bytesOf "sampleTextThatIsTooLongWithNoSpaces").take
          ((20 : Int) - (bytesOf "...").length).toNat ++ bytesOf "...") ∧
      (((bytesOf "sampleTextThatIsTooLongWithNoSpaces").take
          ((20 : Int) - (bytesOf "...").length).toNat ++ bytesOf "...").length : Int) = 20 :=
  Shorten_fallback (bytesOf "sampleTextThatIsTooLongWithNoSpaces") (bytesOf "...") 20
    (by decide) (by decide) (by decide)

/-- C6: for `maxLen >= len(suffix)` no slice of `Shorten` is out of range, so `Shorten`
returns a value: the fallback substring is in range whenever `Shorten` truncates, and the
last-byte slices of the kept text and of the suffix are in range whenever they are taken. -/
theorem Shorten_total (s suffix : List Byte) (maxLen : Int)
    (h : (suffix.length : Int) ≤ maxLen) :
    (Shorten s maxLen suffix).isSome = true ∧
      (maxLen < ((normalize s).length : Int) →
        (sliceBytes (normalize s) 0 (maxLen - suffix.length)).isSome = true ∧
        (kept (normalize s) maxLen suffix).isSome = true) ∧
      (∀ k : List Byte, k.length > 0 →
        (sliceBytes k ((k.length : Int) - 1) k.length).isSome = true ∧
        (sliceBytes k 0 ((k.length : Int) - 1)).isSome = true) ∧
      (suffix.length > 0 → (sliceBytes suffix 0 ((suffix.length : Int) - 1)).isSome = true) ∧
      (∀ k : List Byte, (reconcile k suffix).isSome = true) := by
  refine ⟨?_, ?_, ?_, ?_, ?_⟩
  · obtain ⟨r, hr, _⟩ := Shorten_some_le s suffix maxLen h
    rw [hr]; rfl
  · intro h2
    constructor
    · rw [sliceBytes_take _ _ (by omega) (by omega)]; rfl
    · obtain ⟨k, hk, _⟩ := kept_bound (normalize s) suffix maxLen h h2
      rw [hk]; rfl
  · intro k hk
    have hne : k ≠ [] := List.length_pos.mp hk
    rw [sliceBytes_last k hne, sliceBytes_dropLast k hne]
    exact ⟨rfl, rfl⟩
  · intro hk
    rw [sliceBytes_dropLast suffix (List.length_pos.mp hk)]; rfl
  · intro k
    rw [reconcile_eq]; rfl

/-- Witness of C6 on the fourth row of `TestShortenWithAppend`. -/
theorem Shorten_total_witness :
    (Shorten (bytesOf "sampleTextThatIs.Something.") 20 (bytesOf "...")).isSome = true :=
  (Shorten_total (bytesOf "sampleTextThatIs.Something.") (bytesOf "...") 20 (by decide)).1

/-- C7: for a text of whitespace only (space, tab, CR, LF; also form feed), the empty
text included, and every `maxLen >= 0`, `Shorten` returns the empty text. -/
theorem Shorten_whitespace_only (s suffix : List Byte) (maxLen : Int)
    (hs : ∀ b ∈ s, isSpace b = true) (h : 0 ≤ maxLen) :
    Shorten s maxLen suffix = some [] := by
  unfold Shorten
  simp only
  rw [normalize_of_all_space s hs, if_pos (by simpa using h)]

/-- Witness of C7 on the last row of `TestShortenWithAppend`. -/
theorem Shorten_whitespace_only_witness :
    Shorten (bytesOf " \r\n \r\n\r\n   \r\n\r\n   ") 20 (bytesOf "...") = some [] :=
  Shorten_whitespace_only _ _ 20 (by decide) (by decide)

/-! ## Transliteration -/

theorem val_ofNat (a : Nat) : ((Fin.ofNat a : Byte) : Nat) = a % 256 := rfl

theorem ofNat_ne (a : Nat) (k : Byte) (h : a % 256 ≠ k.val) : (Fin.ofNat a : Byte) ≠ k := by
  intro he
  apply h
  rw [← he]
  rfl

theorem encodeRune_shape (n : Nat) :
    (∀ b ∈ encodeRune n, b ≠ 0xC3) ∨ (∃ y : Byte, y ≠ 0xC3 ∧ encodeRune n = [0xC3, y]) := by
  unfold encodeRune
  split
  · left
    intro b hb
    rw [List.mem_singleton.mp hb]
    exact ofNat_ne _ _ (by simp; omega)
  · split
    · by_cases h3 : n / 64 = 3
      · right
        refine ⟨Fin.ofNat (0x80 + n % 64), ofNat_ne _ _ (by simp; omega), ?_⟩
        rw [h3]
        rfl
      · left
        intro b hb
        simp only [List.mem_cons, List.mem_singleton, List.not_mem_nil, or_false] at hb
        rcases hb with h | h <;> rw [h] <;> exact ofNat_ne _ _ (by simp; omega)
    · split
      · left; decide
      · split
        · left
          intro b hb
          simp only [List.mem_cons, List.mem_singleton, List.not_mem_nil, or_false] at hb
          rcases hb with h | h | h <;> rw [h] <;> exact ofNat_ne _ _ (by simp; omega)
        · split
          · left
            intro b hb
            simp only [List.mem_cons, List.mem_singleton, List.not_mem_nil, or_false] at hb
            rcases hb with h | h | h | h <;> rw [h] <;> exact ofNat_ne _ _ (by simp; omega)
          · left; decide

theorem find?_ext {α : Type} (p q : α → Bool) (l : List α) (h : ∀ a ∈ l, p a = q a) :
    l.find? p = l.find? q := by
  induction l with
  | nil => rfl
  | cons a as ih =>
    simp only [List.find?_cons, h a (by simp)]
    rw [ih (fun b hb => h b (List.mem_cons_of_mem _ hb))]

theorem specialCharsReplacer_keys :
    specialCharsReplacer.all (fun p => p.1.length = 2 ∧ p.1.head? = some 0xC3) = true := by
  decide

theorem specialCharsReplacer_key (p : List Byte × List Byte) (hp : p ∈ specialCharsReplacer) :
    ∃ k : Byte, p.1 = [0xC3, k] := by
  have h := List.all_eq_true.mp specialCharsReplacer_keys p hp
  simp only [decide_eq_true_eq] at h
  obtain ⟨hlen, hhead⟩ := h
  match hp1 : p.1, hlen, hhead with
  | [a, b], _, hh =>
    simp only [List.head?_cons, Option.some.injEq] at hh
    exact ⟨b, by rw [hh]⟩

theorem replacerLookup_of_ne (x : Byte) (rest : List Byte) (hx : x ≠ 0xC3) :
    replacerLookup specialCharsReplacer (x :: rest) = none := by
  unfold replacerLookup
  rw [List.find?_eq_none]
  intro p hp
  obtain ⟨k, hk⟩ := specialCharsReplacer_key p hp
  rw [hk]
  simp [List.isPrefixOf, Ne.symm hx]

theorem replacerLookup_pair (x y : Byte) (rest : List Byte) :
    replacerLookup specialCharsReplacer (x :: y :: rest) =
      specialCharsReplacer.find? (fun p => p.1 = [x, y]) := by
  unfold replacerLookup
  apply find?_ext
  intro p hp
  obtain ⟨k, hk⟩ := specialCharsReplacer_key p hp
  rw [hk]
  simp [List.isPrefixOf, beq_iff_eq, Bool.decide_and, Bool.and_comm]
  rfl

theorem replacerReplace_copy (bs rest : List Byte) (h : ∀ b ∈ bs, b ≠ 0xC3) :
    replacerReplace specialCharsReplacer 0 (bs ++ rest) =
      bs ++ replacerReplace specialCharsReplacer 0 rest := by
  induction bs with
  | nil => rfl
  | cons b bs ih =>
    rw [List.cons_append, replacerReplace, replacerLookup_of_ne b _ (h b (by simp))]
    simp only [List.cons_append, List.cons.injEq, true_and]
    exact ih (fun c hc => h c (List.mem_cons_of_mem _ hc))

theorem replacerReplace_char (c : Char) (rest : List Byte) :
    replacerReplace specialCharsReplacer 0 (encodeRune c.toNat ++ rest) =
      transliterate c ++ replacerReplace specialCharsReplacer 0 rest := by
  unfold transliterate
  rcases encodeRune_shape c.toNat with h | ⟨y, hy, h⟩
  · have hnone : specialCharsReplacer.find? (fun p => p.1 = encodeRune c.toNat) = none := by
      rw [List.find?_eq_none]
      intro p hp
      obtain ⟨k, hk⟩ := specialCharsReplacer_key p hp
      simp only [decide_eq_true_eq]
      intro he
      exact h 0xC3 (by rw [← he, hk]; simp) rfl
    rw [hnone]
    exact replacerReplace_copy _ _ h
  · rw [h]
    simp only [List.cons_append, List.nil_append]
    rw [replacerReplace, replacerLookup_pair]
    cases hf : specialCharsReplacer.find? (fun p => p.1 = [0xC3, y]) with
    | none =>
      simp only
      rw [replacerReplace, replacerLookup_of_ne y _ hy]
      rfl
    | some p =>
      have hp1 : p.1 = [0xC3, y] := by simpa using List.find?_some hf
      simp only [hp1, List.length_cons, List.length_nil]
      rfl

theorem SpecialCharsToStandard_utf8 (cs : List Char) :
    SpecialCharsToStandard (utf8 cs) = cs.flatMap transliterate := by
  unfold SpecialCharsToStandard
  induction cs with
  | nil => rfl
  | cons c cs ih =>
    have : utf8 (c :: cs) = encodeRune c.toNat ++ utf8 cs := by simp [utf8]
    rw [this, replacerReplace_char, ih]
    simp

theorem transliterate_of_not_mapped (c : Char) (h : isMapped c = false) :
    transliterate c = encodeRune c.toNat := by
  unfold transliterate
  have : specialCharsReplacer.find? (fun p => p.1 = encodeRune c.toNat) = none := by
    rw [List.find?_eq_none]
    intro p hp
    unfold isMapped at h
    rw [List.any_eq_false] at h
    exact h p hp
  rw [this]

theorem isMapped_transliterate (c : Char) (h : isMapped c = true) :
    ∃ p ∈ specialCharsReplacer, p.1 = encodeRune c.toNat ∧ transliterate c = p.2 := by
  unfold isMapped at h
  rw [List.any_eq_true] at h
  obtain ⟨q, hq, hqk⟩ := h
  cases hf : specialCharsReplacer.find? (fun p => p.1 = encodeRune c.toNat) with
  | none =>
    rw [List.find?_eq_none] at hf
    exact absurd hqk (hf q hq)
  | some p =>
    refine ⟨p, List.mem_of_find?_eq_some hf, by simpa using List.find?_some hf, ?_⟩
    unfold transliterate
    rw [hf]

/-- C8: for every valid UTF-8 text, given by its characters, `SpecialCharsToStandard`
returns the concatenation, in order, of the replacements of the characters: the new
string of the table for each of the 62 mapped characters, the character itself for every
other one; a text without mapped characters is returned unchanged. -/
theorem SpecialCharsToStandard_chars (cs : List Char) :
    SpecialCharsToStandard (utf8 cs) = cs.flatMap transliterate ∧
      (∀ c, isMapped c = true →
        ∃ p ∈ specialCharsReplacer, p.1 = encodeRune c.toNat ∧ transliterate c = p.2) ∧
      (∀ c, isMapped c = false → transliterate c = encodeRune c.toNat) ∧
      ((∀ c ∈ cs, isMapped c = false) → SpecialCharsToStandard (utf8 cs) = utf8 cs) ∧
      specialCharsReplacer.length = 62 ∧ (specialCharsReplacer.map Prod.fst).Nodup := by
  refine ⟨SpecialCharsToStandard_utf8 cs, isMapped_transliterate, transliterate_of_not_mapped,
    ?_, by decide, by decide⟩
  intro h
  rw [SpecialCharsToStandard_utf8]
  unfold utf8
  induction cs with
  | nil => rfl
  | cons c cs ih =>
    simp only [List.flatMap_cons]
    rw [transliterate_of_not_mapped c (h c (by simp)),
      ih (fun d hd => h d (List.mem_cons_of_mem _ hd))]

/-! ## The code page -/

theorem encodeRune_length_pos (n : Nat) : 0 < (encodeRune n).length := by
  unfold encodeRune
  repeat' split
  all_goals simp

theorem cp1258_length : cp1258.length = 256 := by decide

theorem cp1258_scalars : cp1258.all (fun r => (Char.ofNat r).toNat = r) = true := by decide

theorem cp1258_lookup (chr : Byte) : cp1258[chr.val]? = some (cp1258Char chr).toNat := by
  have hlt : chr.val < cp1258.length := by rw [cp1258_length]; exact chr.isLt
  have hmem : cp1258[chr.val] ∈ cp1258 := List.getElem_mem hlt
  have hv := List.all_eq_true.mp cp1258_scalars _ hmem
  simp only [decide_eq_true_eq] at hv
  unfold cp1258Char
  rw [List.getElem?_eq_getElem hlt, List.getD_eq_getElem _ _ hlt, hv]

theorem cp1258Step_eq (acc : List Byte) (chr : Byte) :
    cp1258Step acc chr = some (acc ++ encodeRune (cp1258Char chr).toNat) := by
  unfold cp1258Step
  rw [cp1258_lookup chr]
  simp only [Option.bind_eq_bind, Option.some_bind, gt_iff_lt, encodeRune_length_pos, if_true]
  rfl

theorem CP1258ToUTF8_from (txt : List Byte) :
    ∀ acc : List Byte,
      List.foldlM cp1258Step acc txt = some (acc ++ utf8 (txt.map cp1258Char)) := by
  induction txt with
  | nil => intro acc; simp [utf8]
  | cons c cs ih =>
    intro acc
    rw [List.foldlM_cons, cp1258Step_eq]
    show Option.bind (some _) _ = _
    rw [Option.some_bind, ih]
    simp [utf8]

theorem runeStarts_encodeRune (n : Nat) : runeStarts (encodeRune n) = 1 := by
  unfold runeStarts encodeRune
  split
  · simp only [List.countP_cons, List.countP_nil, val_ofNat, decide_eq_true_eq]
    split_ifs <;> omega
  · split
    · simp only [List.countP_cons, List.countP_nil, val_ofNat, decide_eq_true_eq]
      split_ifs <;> omega
    · split
      · decide
      · split
        · simp only [List.countP_cons, List.countP_nil, val_ofNat, decide_eq_true_eq]
          split_ifs <;> omega
        · split
          · simp only [List.countP_cons, List.countP_nil, val_ofNat, decide_eq_true_eq]
            split_ifs <;> omega
          · decide

theorem runeStarts_utf8 (cs : List Char) : runeStarts (utf8 cs) = cs.length := by
  induction cs with
  | nil => rfl
  | cons c cs ih =>
    have h1 := runeStarts_encodeRune c.toNat
    unfold runeStarts at h1 ih ⊢
    simp only [utf8, List.flatMap_cons, List.countP_append, List.length_cons] at ih ⊢
    rw [h1, ih]
    omega

/-- C9: for every byte sequence `CP1258ToUTF8` returns a value, the concatenation in order
of the encodings of the code points `cp1258[b[i]]`; these are `len(b)` Unicode scalar
values, and the branch that copies the byte is never taken.  The bytes
`80 E9 E6 F8 E5 0D 0A` decode to the text of `TestCP1258ToUTF8`. -/
theorem CP1258ToUTF8_decodes (b : List Byte) :
    CP1258ToUTF8 b = some (utf8 (b.map cp1258Char)) ∧
      (b.map cp1258Char).length = b.length ∧
      runeStarts (utf8 (b.map cp1258Char)) = b.length ∧
      (∀ chr : Byte, cp1258[chr.val]? = some (cp1258Char chr).toNat) ∧
      (∀ r : Nat, (encodeRune r).length > 0) ∧
      CP1258ToUTF8 [0x80, 0xE9, 0xE6, 0xF8, 0xE5, 0x0D, 0x0A] = some (bytesOf "€éæøå\r\n") := by
  refine ⟨?_, by simp, by rw [runeStarts_utf8]; simp, cp1258_lookup, encodeRune_length_pos,
    by decide⟩
  have := CP1258ToUTF8_from b []
  simpa [CP1258ToUTF8] using this

/-! ## The case tokenizer -/

/-- The model of the tokenizer reproduces every row of `TestSnakeCase`. -/
theorem SnakeCase_samples :
    snakeCaseSamples.all (fun p => SnakeCase (bytesOf p.1) = bytesOf p.2) = true := by
  decide

/-- The model reproduces every row of `TestSlug`, and of `TestKebabCase`, whose rows are
the rows of `TestSlug` without the last one. -/
theorem Slug_samples :
    slugSamples.all (fun p => Slug (bytesOf p.1) = bytesOf p.2) = true ∧
      slugSamples.dropLast.all (fun p => KebabCase (bytesOf p.1) = bytesOf p.2) = true := by
  constructor <;> decide

theorem toLower_slugChar : ∀ c : Byte, isWord c = true → isSlugChar (toLower c) = true := by
  decide

theorem slugChar_of_not_upper :
    ∀ c : Byte, isWord c = true → isUpper c = false → isSlugChar c = true := by
  decide

theorem slugChar_ne : ∀ c : Byte, isSlugChar c = true → c ≠ 45 ∧ c ≠ 95 := by
  decide

theorem flushToken_tokens (cur : List Byte) (hcur : ∀ b ∈ cur, isSlugChar b = true) :
    ∀ t ∈ flushToken cur, t ≠ [] ∧ ∀ b ∈ t, isSlugChar b = true := by
  intro t ht
  unfold flushToken at ht
  split at ht
  · simp at ht
  · rename_i hne
    rw [List.mem_singleton.mp ht]
    exact ⟨hne, hcur⟩

theorem tokenizeFrom_tokens (s : List Byte) :
    ∀ (ph : TokenPhase) (cur : List Byte), (∀ b ∈ cur, isSlugChar b = true) →
      ∀ t ∈ tokenizeFrom ph cur s, t ≠ [] ∧ ∀ b ∈ t, isSlugChar b = true := by
  induction s with
  | nil =>
    intro ph cur hcur
    simpa [tokenizeFrom] using flushToken_tokens cur hcur
  | cons c cs ih =>
    intro ph cur hcur t ht
    have snoc : ∀ x : Byte, isSlugChar x = true → ∀ b ∈ cur ++ [x], isSlugChar b = true := by
      intro x hx b hb
      rcases List.mem_append.mp hb with h | h
      · exact hcur b h
      · rw [List.mem_singleton.mp h]; exact hx
    have single : ∀ x : Byte, isSlugChar x = true → ∀ b ∈ [x], isSlugChar b = true := by
      intro x hx b hb
      rw [List.mem_singleton.mp hb]; exact hx
    unfold tokenizeFrom at ht
    by_cases hw : isWord c = false
    · rw [if_pos hw] at ht
      rcases List.mem_append.mp ht with h | h
      · exact flushToken_tokens cur hcur t h
      · exact ih _ [] (by simp) t h
    · rw [if_neg hw] at ht
      have hw1 : isWord c = true := by simpa using hw
      cases ph with
      | separator => exact ih _ _ (single _ (toLower_slugChar c hw1)) t ht
      | head =>
        simp only at ht
        split at ht
        · rename_i hl
          exact ih _ _ (snoc c (by simp [isSlugChar, hl])) t ht
        · exact ih _ _ (snoc _ (toLower_slugChar c hw1)) t ht
      | tail =>
        simp only at ht
        split at ht
        · rcases List.mem_append.mp ht with h | h
          · exact flushToken_tokens cur hcur t h
          · exact ih _ _ (single _ (toLower_slugChar c hw1)) t h
        · rename_i hu
          exact ih _ _ (snoc c (slugChar_of_not_upper c hw1 (by simpa using hu))) t ht

theorem chain_of_slugChars (sep : Byte) (t : List Byte) (h : ∀ b ∈ t, b ≠ sep) :
    List.Chain' (fun a b => ¬ (a = sep ∧ b = sep)) t := by
  induction t with
  | nil => exact List.chain'_nil
  | cons x xs ih =>
    rw [List.chain'_cons']
    refine ⟨?_, ih (fun b hb => h b (List.mem_cons_of_mem _ hb))⟩
    intro y _ hxy
    exact h x (by simp) hxy.1

theorem joinWith_shape (sep : Byte) (ts : List (List Byte))
    (h : ∀ t ∈ ts, t ≠ [] ∧ ∀ b ∈ t, b ≠ sep) :
    (∀ x, (joinWith sep ts).head? = some x → x ≠ sep) ∧
      (∀ x, (joinWith sep ts).getLast? = some x → x ≠ sep) ∧
      List.Chain' (fun a b => ¬ (a = sep ∧ b = sep)) (joinWith sep ts) := by
  induction ts with
  | nil => simp [joinWith]
  | cons t ts ih =>
    obtain ⟨htne, htg⟩ := h t (by simp)
    cases ts with
    | nil =>
      simp only [joinWith]
      exact ⟨fun x hx => htg x (List.mem_of_mem_head? hx),
        fun x hx => htg x (List.mem_of_getLast?_eq_some hx), chain_of_slugChars sep t htg⟩
    | cons u us =>
      obtain ⟨ih1, ih2, ih3⟩ := ih (fun v hv => h v (List.mem_cons_of_mem _ hv))
      simp only [joinWith] at ih1 ih2 ih3 ⊢
      refine ⟨?_, ?_, ?_⟩
      · intro x hx
        cases t with
        | nil => exact absurd rfl htne
        | cons a as =>
          simp only [List.cons_append, List.head?_cons, Option.some.injEq] at hx
          rw [← hx]; exact htg a (by simp)
      · intro x hx
        have hune : joinWith sep (u :: us) ≠ [] := by
          have hu := (h u (by simp)).1
          cases us with
          | nil => simpa [joinWith] using hu
          | cons v vs => simp [joinWith, hu]
        obtain ⟨v, vs, hv⟩ := List.exists_cons_of_ne_nil hune
        rw [List.getLast?_append_of_ne_nil _ (by simp), hv, List.getLast?_cons_cons, ← hv] at hx
        exact ih2 x hx
      · rw [List.chain'_append]
        refine ⟨chain_of_slugChars sep t htg, ?_, ?_⟩
        · rw [List.chain'_cons']
          exact ⟨fun y hy hxy => ih1 y hy hxy.2, ih3⟩
        · intro x hx y _ hxy
          exact htg x (List.mem_of_mem_getLast? hx) hxy.1

theorem KebabCase_eq (s : List Byte) : KebabCase s = joinWith 45 (tokenize s) := by
  have htok := tokenizeFrom_tokens s .separator [] (by simp)
  unfold KebabCase Snakecase
  change List.map _ (joinWith 95 (tokenizeFrom .separator [] s)) =
    joinWith 45 (tokenizeFrom .separator [] s)
  generalize tokenizeFrom .separator [] s = ts at htok
  have hmap : ∀ t : List Byte, (∀ b ∈ t, isSlugChar b = true) →
      t.map (fun b => if b = 95 then (45 : Byte) else b) = t := by
    intro t ht
    conv_rhs => rw [← List.map_id t]
    apply List.map_congr_left
    intro b hb
    simp [(slugChar_ne b (ht b hb)).2]
  induction ts with
  | nil => rfl
  | cons t ts ih =>
    have ht := (htok t (by simp)).2
    cases ts with
    | nil => simpa [joinWith] using hmap t ht
    | cons u us =>
      have := ih (fun v hv => htok v (List.mem_cons_of_mem _ hv))
      simp only [joinWith, List.map_append, List.map_cons, hmap t ht] at this ⊢
      rw [this]
      simp

theorem joinWith_mem (sep : Byte) (ts : List (List Byte)) (b : Byte)
    (hb : b ∈ joinWith sep ts) : b = sep ∨ ∃ t ∈ ts, b ∈ t := by
  induction ts with
  | nil => simp [joinWith] at hb
  | cons t ts ih =>
    cases ts with
    | nil => exact Or.inr ⟨t, by simp, by simpa [joinWith] using hb⟩
    | cons u us =>
      simp only [joinWith, List.mem_append, List.mem_cons] at hb
      rcases hb with h | h | h
      · exact Or.inr ⟨t, by simp, h⟩
      · exact Or.inl h
      · rcases ih (by simpa [joinWith] using h) with h1 | ⟨v, hv, hbv⟩
        · exact Or.inl h1
        · exact Or.inr ⟨v, List.mem_cons_of_mem _ hv, hbv⟩

/-- C10: for every input, `Slug` returns a text of the characters `a-z`, `0-9` and `-`
only, that does not begin with `-`, does not end with `-`, and has no two consecutive
`-`. -/
theorem Slug_shape (s : List Byte) :
    (∀ b ∈ Slug s, isLower b = true ∨ isDigit b = true ∨ b = 45) ∧
      (Slug s).head? ≠ some 45 ∧ (Slug s).getLast? ≠ some 45 ∧
      List.Chain' (fun a b => ¬ (a = 45 ∧ b = 45)) (Slug s) := by
  have htok := tokenizeFrom_tokens (SpecialCharsToStandard s) .separator [] (by simp)
  have hshape := joinWith_shape 45 (tokenize (SpecialCharsToStandard s))
    (fun t ht => ⟨(htok t ht).1, fun b hb => (slugChar_ne b ((htok t ht).2 b hb)).1⟩)
  unfold Slug
  rw [KebabCase_eq]
  refine ⟨?_, fun h => hshape.1 45 h rfl, fun h => hshape.2.1 45 h rfl, hshape.2.2⟩
  intro b hb
  rcases joinWith_mem 45 _ b hb with h | ⟨t, ht, hbt⟩
  · exact Or.inr (Or.inr h)
  · have := (htok t ht).2 b hbt
    simp only [isSlugChar, Bool.or_eq_true] at this
    rcases this with h | h
    · exact Or.inl h
    · exact Or.inr (Or.inl h)

/-! ## The test tables of the composers -/

/-- The model of the composers reproduces every row of `TestCamelCase`, `TestPascalCase`
and `TestUnCase`. -/
theorem composer_samples :
    camelCaseSamples.all (fun p => CamelCase (bytesOf p.1) = bytesOf p.2) = true ∧
      pascalCaseSamples.all (fun p => PascalCase (bytesOf p.1) = some (bytesOf p.2)) = true ∧
      unCaseSamples.all (fun p => UnCase (bytesOf p.1) = some (bytesOf p.2)) = true := by
  refine ⟨?_, ?_, ?_⟩ <;> decide

/-- In the camel mode a letter after a run of digits starts a word. -/
theorem camelDigit_samples :
    camelDigitSamples.all (fun p =>
      CamelCase (bytesOf p.1) = bytesOf p.2.1 ∧
        PascalCase (bytesOf p.1) = some (bytesOf p.2.2)) = true := by
  decide

/-! ## Slug and KebabCase -/

theorem SpecialCharsToStandard_of_no_key (s : List Byte)
    (h : ∀ p ∈ specialCharsReplacer, ¬ p.1 <:+: s) : SpecialCharsToStandard s = s := by
  unfold SpecialCharsToStandard
  induction s with
  | nil => rfl
  | cons c cs ih =>
    have hnone : replacerLookup specialCharsReplacer (c :: cs) = none := by
      unfold replacerLookup
      rw [List.find?_eq_none]
      intro p hp hpre
      exact h p hp (List.isPrefixOf_iff_prefix.mp hpre).isInfix
    rw [replacerReplace, hnone]
    simp only [List.cons.injEq, true_and]
    exact ih (fun p hp hin => h p hp (hin.trans (List.suffix_cons c cs).isInfix))

theorem no_key_of_ascii (s : List Byte) (h : ∀ b ∈ s, b.val < 128) :
    ∀ p ∈ specialCharsReplacer, ¬ p.1 <:+: s := by
  intro p hp hin
  obtain ⟨k, hk⟩ := specialCharsReplacer_key p hp
  have hmem : (0xC3 : Byte) ∈ s := hin.subset (by rw [hk]; simp)
  exact absurd (h _ hmem) (by decide)

theorem SpecialCharsToStandard_of_not_mapped (cs : List Char)
    (h : ∀ c ∈ cs, isMapped c = false) : SpecialCharsToStandard (utf8 cs) = utf8 cs := by
  rw [SpecialCharsToStandard_utf8]
  unfold utf8
  induction cs with
  | nil => rfl
  | cons c cs ih =>
    simp only [List.flatMap_cons]
    rw [transliterate_of_not_mapped c (h c (by simp)),
      ih (fun d hd => h d (List.mem_cons_of_mem _ hd))]

/-- C11: `Slug(s) = KebabCase(SpecialCharsToStandard(s))` for every `s`; hence
`Slug(s) = KebabCase(s)` for every `s` in which no old string of the transliteration table
occurs, in particular for every valid UTF-8 text without a mapped character and for every
ASCII text. -/
theorem Slug_eq_KebabCase (s : List Byte) :
    Slug s = KebabCase (SpecialCharsToStandard s) ∧
      ((∀ p ∈ specialCharsReplacer, ¬ p.1 <:+: s) → Slug s = KebabCase s) ∧
      (∀ cs : List Char, s = utf8 cs → (∀ c ∈ cs, isMapped c = false) →
        Slug s = KebabCase s) ∧
      ((∀ b ∈ s, b.val < 128) → Slug s = KebabCase s) := by
  refine ⟨rfl, ?_, ?_, ?_⟩
  · intro h
    unfold Slug
    rw [SpecialCharsToStandard_of_no_key s h]
  · intro cs hs h
    unfold Slug
    rw [hs, SpecialCharsToStandard_of_not_mapped cs h]
  · intro h
    unfold Slug
    rw [SpecialCharsToStandard_of_no_key s (no_key_of_ascii s h)]

/-- Witness of C11 on the sixth row of `TestSlug`, an ASCII text. -/
theorem Slug_eq_KebabCase_witness :
    Slug (bytesOf "inviteYourCustomersAddInvites") =
      KebabCase (bytesOf "inviteYourCustomersAddInvites") :=
  (Slug_eq_KebabCase (bytesOf "inviteYourCustomersAddInvites")).2.2.2 (by decide)

/-! ## Tokens read again -/

theorem slugChar_facts :
    ∀ c : Byte, isSlugChar c = true →
      isWord c = true ∧ isUpper c = false ∧ toLower c = c := by
  decide

theorem tokenizeFrom_slugChar (c : Byte) (hc : isSlugChar c = true) (ph : TokenPhase)
    (cur : List Byte) (hph : ph = .separator → cur = []) :
    ∃ ph1, ph1 ≠ TokenPhase.separator ∧
      ∀ rest, tokenizeFrom ph cur (c :: rest) = tokenizeFrom ph1 (cur ++ [c]) rest := by
  obtain ⟨hw, hu, hl⟩ := slugChar_facts c hc
  cases ph with
  | separator =>
    rw [hph rfl]
    by_cases hlow : isLower c = true
    · exact ⟨.tail, by simp, fun rest => by simp [tokenizeFrom, hw, hl, hlow]⟩
    · exact ⟨.head, by simp, fun rest => by simp [tokenizeFrom, hw, hl, hlow]⟩
  | head =>
    by_cases hlow : isLower c = true
    · exact ⟨.tail, by simp, fun rest => by simp [tokenizeFrom, hw, hlow]⟩
    · exact ⟨.head, by simp, fun rest => by simp [tokenizeFrom, hw, hl, hlow]⟩
  | tail => exact ⟨.tail, by simp, fun rest => by simp [tokenizeFrom, hw, hu]⟩

theorem tokenizeFrom_not_word (ph : TokenPhase) (cur : List Byte) (c : Byte) (cs : List Byte)
    (hw : isWord c = false) :
    tokenizeFrom ph cur (c :: cs) = flushToken cur ++ tokenizeFrom .separator [] cs := by
  cases ph <;> simp [tokenizeFrom, hw]

theorem tokenizeFrom_slug_run (t : List Byte) (ht : ∀ b ∈ t, isSlugChar b = true)
    (hne : t ≠ []) :
    ∀ (ph : TokenPhase) (cur : List Byte), (ph = .separator → cur = []) →
      ∃ ph1, ph1 ≠ TokenPhase.separator ∧
        ∀ rest, tokenizeFrom ph cur (t ++ rest) = tokenizeFrom ph1 (cur ++ t) rest := by
  induction t with
  | nil => exact absurd rfl hne
  | cons c cs ih =>
    intro ph cur hph
    obtain ⟨ph1, hph1, hstep⟩ := tokenizeFrom_slugChar c (ht c (by simp)) ph cur hph
    by_cases hcs : cs = []
    · subst hcs
      exact ⟨ph1, hph1, fun rest => by simpa using hstep rest⟩
    · obtain ⟨ph2, hph2, hrun⟩ := ih (fun b hb => ht b (List.mem_cons_of_mem _ hb)) hcs ph1
        (cur ++ [c]) (fun h => absurd h hph1)
      refine ⟨ph2, hph2, fun rest => ?_⟩
      rw [List.cons_append, hstep, hrun]
      simp

theorem tokenize_joinWith (sep : Byte) (hsep : isWord sep = false) (ts : List (List Byte))
    (hts : ∀ t ∈ ts, t ≠ [] ∧ ∀ b ∈ t, isSlugChar b = true) :
    tokenize (joinWith sep ts) = ts := by
  unfold tokenize
  induction ts with
  | nil => rfl
  | cons t ts ih =>
    obtain ⟨hne, ht⟩ := hts t (by simp)
    obtain ⟨ph1, _, hrun⟩ := tokenizeFrom_slug_run t ht hne .separator [] (fun _ => rfl)
    cases ts with
    | nil =>
      have := hrun []
      simp only [List.append_nil, List.nil_append] at this
      simp only [joinWith, this, tokenizeFrom, flushToken, hne, if_false]
    | cons u us =>
      have hrest := ih (fun v hv => hts v (List.mem_cons_of_mem _ hv))
      simp only [joinWith] at hrest ⊢
      rw [hrun, List.nil_append, tokenizeFrom_not_word _ _ _ _ hsep, hrest]
      simp [flushToken, hne]

/-- C12: `SnakeCase` and `KebabCase` are idempotent. -/
theorem SnakeCase_KebabCase_idempotent (s : List Byte) :
    SnakeCase (SnakeCase s) = SnakeCase s ∧ KebabCase (KebabCase s) = KebabCase s := by
  have htok : ∀ t ∈ tokenize s, t ≠ [] ∧ ∀ b ∈ t, isSlugChar b = true :=
    tokenizeFrom_tokens s .separator [] (by simp)
  constructor
  · unfold SnakeCase Snakecase
    rw [tokenize_joinWith 95 (by decide) _ htok]
  · rw [KebabCase_eq s, KebabCase_eq, tokenize_joinWith 45 (by decide) _ htok]

/-! ## A digit after a letter -/

theorem tokenizeFrom_prefix (pre : List Byte) :
    ∀ (ph : TokenPhase) (cur : List Byte),
      ∃ (done : List (List Byte)) (ph1 : TokenPhase) (cur1 : List Byte),
        ∀ rest, tokenizeFrom ph cur (pre ++ rest) = done ++ tokenizeFrom ph1 cur1 rest := by
  induction pre with
  | nil => intro ph cur; exact ⟨[], ph, cur, fun rest => rfl⟩
  | cons c cs ih =>
    intro ph cur
    by_cases hw : isWord c = false
    · obtain ⟨done, ph1, cur1, h⟩ := ih .separator []
      refine ⟨flushToken cur ++ done, ph1, cur1, fun rest => ?_⟩
      rw [List.cons_append, tokenizeFrom_not_word _ _ _ _ hw, h, List.append_assoc]
    · cases ph with
      | separator =>
        obtain ⟨done, ph1, cur1, h⟩ := ih (if isLower c then .tail else .head) [toLower c]
        refine ⟨done, ph1, cur1, fun rest => ?_⟩
        rw [List.cons_append, tokenizeFrom, if_neg hw, h]
      | head =>
        by_cases hl : isLower c = true
        · obtain ⟨done, ph1, cur1, h⟩ := ih .tail (cur ++ [c])
          refine ⟨done, ph1, cur1, fun rest => ?_⟩
          rw [List.cons_append, tokenizeFrom, if_neg hw]
          simp only [hl, if_true]
          exact h rest
        · obtain ⟨done, ph1, cur1, h⟩ := ih .head (cur ++ [toLower c])
          refine ⟨done, ph1, cur1, fun rest => ?_⟩
          rw [List.cons_append, tokenizeFrom, if_neg hw]
          simp only [hl]
          exact h rest
      | tail =>
        by_cases hu : isUpper c = true
        · obtain ⟨done, ph1, cur1, h⟩ := ih .head [toLower c]
          refine ⟨flushToken cur ++ done, ph1, cur1, fun rest => ?_⟩
          rw [List.cons_append, tokenizeFrom, if_neg hw]
          simp only [hu, if_true]
          rw [h, List.append_assoc]
        · obtain ⟨done, ph1, cur1, h⟩ := ih .tail (cur ++ [c])
          refine ⟨done, ph1, cur1, fun rest => ?_⟩
          rw [List.cons_append, tokenizeFrom, if_neg hw]
          simp only [hu]
          exact h rest

theorem letter_facts :
    ∀ c : Byte, (isUpper c = true ∨ isLower c = true) →
      isWord c = true ∧ (isLower c = true → toLower c = c) ∧
        (isUpper c = false → toLower c = c) := by
  decide

theorem digit_facts :
    ∀ c : Byte, isDigit c = true →
      isWord c = true ∧ isLower c = false ∧ isUpper c = false ∧ toLower c = c := by
  decide

theorem tokenizeFrom_letter (l : Byte) (hl : isUpper l = true ∨ isLower l = true)
    (ph : TokenPhase) (cur : List Byte) :
    ∃ (done : List (List Byte)) (ph1 : TokenPhase) (u : List Byte),
      ph1 ≠ TokenPhase.separator ∧
        ∀ rest, tokenizeFrom ph cur (l :: rest) =
          done ++ tokenizeFrom ph1 (u ++ [toLower l]) rest := by
  obtain ⟨hw, hlow, hup⟩ := letter_facts l hl
  cases ph with
  | separator =>
    by_cases h : isLower l = true
    · exact ⟨[], .tail, [], by simp, fun rest => by simp [tokenizeFrom, hw, h]⟩
    · exact ⟨[], .head, [], by simp, fun rest => by simp [tokenizeFrom, hw, h]⟩
  | head =>
    by_cases h : isLower l = true
    · exact ⟨[], .tail, cur, by simp, fun rest => by simp [tokenizeFrom, hw, h, hlow h]⟩
    · exact ⟨[], .head, cur, by simp, fun rest => by simp [tokenizeFrom, hw, h]⟩
  | tail =>
    by_cases h : isUpper l = true
    · exact ⟨flushToken cur, .head, [], by simp, fun rest => by simp [tokenizeFrom, hw, h]⟩
    · exact ⟨[], .tail, cur, by simp,
        fun rest => by simp [tokenizeFrom, hw, h, hup (by simpa using h)]⟩

theorem tokenizeFrom_first_token (rest : List Byte) :
    ∀ (ph : TokenPhase) (cur : List Byte), ph ≠ .separator → cur ≠ [] →
      ∃ (v : List Byte) (more : List (List Byte)),
        tokenizeFrom ph cur rest = (cur ++ v) :: more := by
  induction rest with
  | nil =>
    intro ph cur _ hcur
    exact ⟨[], [], by simp [tokenizeFrom, flushToken, hcur]⟩
  | cons c cs ih =>
    intro ph cur hph hcur
    by_cases hw : isWord c = false
    · exact ⟨[], tokenizeFrom .separator [] cs,
        by rw [tokenizeFrom_not_word _ _ _ _ hw]; simp [flushToken, hcur]⟩
    · cases ph with
      | separator => exact absurd rfl hph
      | head =>
        by_cases hl : isLower c = true
        · obtain ⟨v, more, h⟩ := ih .tail (cur ++ [c]) (by simp) (by simp)
          exact ⟨c :: v, more, by rw [tokenizeFrom, if_neg hw]; simp [hl, h]⟩
        · obtain ⟨v, more, h⟩ := ih .head (cur ++ [toLower c]) (by simp) (by simp)
          exact ⟨toLower c :: v, more, by rw [tokenizeFrom, if_neg hw]; simp [hl, h]⟩
      | tail =>
        by_cases hu : isUpper c = true
        · exact ⟨[], tokenizeFrom .head [toLower c] cs,
            by rw [tokenizeFrom, if_neg hw]; simp [hu, flushToken, hcur]⟩
        · obtain ⟨v, more, h⟩ := ih .tail (cur ++ [c]) (by simp) (by simp)
          exact ⟨c :: v, more, by rw [tokenizeFrom, if_neg hw]; simp [hu, h]⟩

/-- C16 as stated fails on the rows `Base64Encode` of the test tables: the letter `e` is
directly followed by the digit `6`, and the results have neither `e_6` nor `e-6`. -/
theorem no_separator_before_digit :
    SnakeCase (bytesOf "___$$Base64Encode") = bytesOf "base64_encode" ∧
      KebabCase (bytesOf "___$$Base64Encode") = bytesOf "base64-encode" ∧
      ¬ (bytesOf "e_6" <:+: SnakeCase (bytesOf "___$$Base64Encode")) ∧
      ¬ (bytesOf "e-6" <:+: KebabCase (bytesOf "___$$Base64Encode")) := by
  refine ⟨?_, ?_, ?_, ?_⟩ <;> decide

/-- C16, amended: a letter-to-digit transition starts no token.  For every input in which
an ASCII letter is directly followed by a digit, the digit continues the token that the
letter belongs to, so `SnakeCase` and `KebabCase` write the lowercased letter and the
digit next to each other, without a separator. -/
theorem digit_continues_token (pre post : List Byte) (l d : Byte)
    (hl : isUpper l = true ∨ isLower l = true) (hd : isDigit d = true) :
    ∃ (before : List (List Byte)) (u v : List Byte) (after : List (List Byte)),
      tokenize (pre ++ [l]) = before ++ [u ++ [toLower l]] ∧
      tokenize (pre ++ l :: d :: post) = before ++ (u ++ toLower l :: d :: v) :: after ∧
      SnakeCase (pre ++ l :: d :: post) =
        joinWith 95 (before ++ (u ++ toLower l :: d :: v) :: after) ∧
      KebabCase (pre ++ l :: d :: post) =
        joinWith 45 (before ++ (u ++ toLower l :: d :: v) :: after) := by
  obtain ⟨done0, ph0, cur0, h0⟩ := tokenizeFrom_prefix pre .separator []
  obtain ⟨done1, ph1, u, hph1, h1⟩ := tokenizeFrom_letter l hl ph0 cur0
  obtain ⟨hdw, hdl, hdu, hdlow⟩ := digit_facts d hd
  have hstep : ∀ rest, tokenizeFrom ph1 (u ++ [toLower l]) (d :: rest) =
      tokenizeFrom ph1 (u ++ [toLower l] ++ [d]) rest := by
    intro rest
    cases ph1 with
    | separator => exact absurd rfl hph1
    | head => simp [tokenizeFrom, hdw, hdl, hdlow]
    | tail => simp [tokenizeFrom, hdw, hdu]
  obtain ⟨v, after, hv⟩ := tokenizeFrom_first_token post ph1 (u ++ [toLower l] ++ [d]) hph1
    (by simp)
  have htok2 : tokenize (pre ++ l :: d :: post) =
      (done0 ++ done1) ++ (u ++ toLower l :: d :: v) :: after := by
    unfold tokenize
    rw [h0, h1, hstep, hv]
    simp
  refine ⟨done0 ++ done1, u, v, after, ?_, htok2, ?_, ?_⟩
  · unfold tokenize
    rw [h0, h1]
    simp [tokenizeFrom, flushToken]
  · unfold SnakeCase Snakecase
    rw [htok2]
  · rw [KebabCase_eq, htok2]

/-- Witness of the amended C16 on `Base64Encode`, the letter `e` before the digit `6`. -/
theorem digit_continues_token_witness :
    ∃ (before : List (List Byte)) (u v : List Byte) (after : List (List Byte)),
      tokenize (bytesOf "___$$Bas" ++ [101]) = before ++ [u ++ [toLower 101]] ∧
      tokenize (bytesOf "___$$Bas" ++ 101 :: 54 :: bytesOf "4Encode") =
        before ++ (u ++ toLower 101 :: 54 :: v) :: after ∧
      SnakeCase (bytesOf "___$$Bas" ++ 101 :: 54 :: bytesOf "4Encode") =
        joinWith 95 (before ++ (u ++ toLower 101 :: 54 :: v) :: after) ∧
      KebabCase (bytesOf "___$$Bas" ++ 101 :: 54 :: bytesOf "4Encode") =
        joinWith 45 (before ++ (u ++ toLower 101 :: 54 :: v) :: after) :=
  digit_continues_token (bytesOf "___$$Bas") (bytesOf "4Encode") 101 54 (by decide) (by decide)

/-! ## Inputs without tokens -/

theorem tokenizeFrom_ne_nil (s : List Byte) :
    ∀ (ph : TokenPhase) (cur : List Byte), cur ≠ [] → tokenizeFrom ph cur s ≠ [] := by
  induction s with
  | nil =>
    intro ph cur h
    simp [tokenizeFrom, flushToken, h]
  | cons c cs ih =>
    intro ph cur h
    unfold tokenizeFrom
    split
    · simp [flushToken, h]
    · cases ph with
      | separator => exact ih _ _ (by simp)
      | head =>
        simp only
        split <;> exact ih _ _ (by simp)
      | tail =>
        simp only
        split
        · simp [flushToken, h]
        · exact ih _ _ (by simp)

theorem tokenize_eq_nil_iff (s : List Byte) :
    tokenize s = [] ↔ ∀ b ∈ s, isWord b = false := by
  unfold tokenize
  induction s with
  | nil => simp [tokenizeFrom, flushToken]
  | cons c cs ih =>
    unfold tokenizeFrom
    by_cases hw : isWord c = false
    · rw [if_pos hw]
      simp only [flushToken, if_true, List.nil_append, List.mem_cons, forall_eq_or_imp, hw,
        true_and]
      exact ih
    · rw [if_neg hw]
      have hne := tokenizeFrom_ne_nil cs (if isLower c then .tail else .head) [toLower c]
        (by simp)
      constructor
      · intro h
        exact absurd h hne
      · intro h
        exact absurd (h c (by simp)) hw

theorem PascalCase_some (s : List Byte) : ∃ r, PascalCase s = some r := by
  unfold PascalCase
  simp only
  split
  · rename_i h
    have h1 : (1 : Int) ≤ ((Camelcase s).length : Int) := by omega
    rw [sliceBytes_take _ 1 (by omega) h1]
    unfold sliceBytes
    rw [if_pos ⟨by omega, h1, le_refl _⟩]
    exact ⟨_, rfl⟩
  · exact ⟨_, rfl⟩

theorem not_word_facts :
    ∀ c : Byte, isWord c = false →
      isDigit c = false ∧ isUpper c = false ∧ isLower c = false := by
  decide

theorem camelScan_of_no_word (s : List Byte) (h : ∀ b ∈ s, isWord b = false) :
    ∀ ph : CamelPhase, camelScan ph s = [] := by
  induction s with
  | nil => intro ph; rfl
  | cons c cs ih =>
    intro ph
    have hw : isWord c = false := h c (by simp)
    obtain ⟨hd, hu, hl⟩ := not_word_facts c hw
    have hstep : camelStep ph c = (none, .start) := by
      cases ph <;> simp [camelStep, camelStart, hw, hd, hu, hl]
    rw [camelScan, hstep]
    exact ih (fun b hb => h b (List.mem_cons_of_mem _ hb)) .start

/-- C14: an input has no token exactly when it contains no ASCII letter or digit; for
such an input `SnakeCase`, `KebabCase`, `CamelCase` and `PascalCase` return the empty
text.  `PascalCase` returns a value for every input: it never slices an empty text. -/
theorem empty_of_no_token (s : List Byte) :
    (tokenize s = [] ↔ ∀ b ∈ s, isWord b = false) ∧
      (tokenize s = [] →
        SnakeCase s = [] ∧ KebabCase s = [] ∧ CamelCase s = [] ∧ PascalCase s = some []) ∧
      PascalCase [] = some [] ∧
      (∀ t : List Byte, ∃ r, PascalCase t = some r) := by
  refine ⟨tokenize_eq_nil_iff s, ?_, by decide, PascalCase_some⟩
  intro h
  have hc : Camelcase s = [] := by
    unfold Camelcase
    rw [camelScan_of_no_word s ((tokenize_eq_nil_iff s).mp h)]
    rfl
  refine ⟨?_, ?_, hc, ?_⟩
  · unfold SnakeCase Snakecase; rw [h]; rfl
  · unfold KebabCase Snakecase; rw [h]; rfl
  · unfold PascalCase
    simp [hc]

/-- Witness of C14 on the texts `""` and `"$#%"`. -/
theorem empty_of_no_token_witness :
    (SnakeCase (bytesOf "$#%") = [] ∧ KebabCase (bytesOf "$#%") = [] ∧
        CamelCase (bytesOf "$#%") = [] ∧ PascalCase (bytesOf "$#%") = some []) ∧
      (SnakeCase (bytesOf "") = [] ∧ KebabCase (bytesOf "") = [] ∧
        CamelCase (bytesOf "") = [] ∧ PascalCase (bytesOf "") = some []) :=
  ⟨(empty_of_no_token (bytesOf "$#%")).2.1 (by decide),
    (empty_of_no_token (bytesOf "")).2.1 (by decide)⟩

theorem UnCase_none_of_no_token (s : List Byte) (h : tokenize s = []) : UnCase s = none := by
  unfold UnCase Snakecase
  rw [h]
  rfl

/-- C15, the behaviour of the code at the failing inputs: for the empty text and for
`"$$$"`, which have no token, `UnCase` takes the slice `str[0:1]` of an empty text, which
is out of range, and returns nothing; `PascalCase`, which tests `len(out) > 0` before the
same slice, returns the empty text. -/
theorem UnCase_fails :
    UnCase (bytesOf "") = none ∧ UnCase (bytesOf "$$$") = none ∧
      PascalCase (bytesOf "") = some [] ∧ PascalCase (bytesOf "$$$") = some [] :=
  ⟨UnCase_none_of_no_token _ (by decide), UnCase_none_of_no_token _ (by decide),
    by decide, by decide⟩

/-! ## Camel case read again -/

theorem camel_byte_facts :
    ∀ c : Byte, isWord c = true →
      (isDigit c = true ∧ isUpper c = false ∧ isLower c = false ∧ toLower c = c ∧
          toUpperByte c = c ∧ c.val < 128) ∨
        (isUpper c = true ∧ isDigit c = false ∧ isLower c = false ∧
          isLower (toLower c) = true ∧ isWord (toLower c) = true ∧
          toUpperByte (toLower c) = c ∧ (toLower c).val < 128) ∨
        (isLower c = true ∧ isDigit c = false ∧ isUpper c = false ∧ toLower c = c ∧
          isUpper (toUpperByte c) = true ∧ isWord (toUpperByte c) = true ∧
          toLower (toUpperByte c) = c ∧ c.val < 128) := by
  decide

theorem camelScan_fixed (w : List Byte) :
    ∀ (prev : Byte) (ph : CamelPhase),
      (isDigit prev = true → ph = .digits) → (isUpper prev = true → ph = .uppers) →
      (isLower prev = true → ph = .lowers) → isWord prev = true →
      (∀ b ∈ w, isWord b = true) →
      List.Chain' (fun a b => ¬ (isUpper a = true ∧ isUpper b = true)) (prev :: w) →
      List.Chain' (fun a b => ¬ (isDigit a = true ∧ isLower b = true)) (prev :: w) →
      camelScan ph w = w := by
  induction w with
  | nil => intro _ _ _ _ _ _ _ _ _; rfl
  | cons c cs ih =>
    intro prev ph hd hu hl hwp hw huu hdl
    have hwc : isWord c = true := hw c (by simp)
    have hwcs : ∀ b ∈ cs, isWord b = true := fun b hb => hw b (List.mem_cons_of_mem _ hb)
    rw [List.chain'_cons'] at huu hdl
    have huu1 := huu.1 c (by simp)
    have hdl1 := hdl.1 c (by simp)
    have hstep : ∃ ph1, camelStep ph c = (some c, ph1) ∧
        (isDigit c = true → ph1 = .digits) ∧ (isUpper c = true → ph1 = .uppers) ∧
        (isLower c = true → ph1 = .lowers) := by
      rcases camel_byte_facts prev hwp with hp | hp | hp
      · -- after a digit
        rw [hd hp.1]
        rcases camel_byte_facts c hwc with h | h | h
        · exact ⟨.digits, by simp [camelStep, h.1], by simp, by simp [h.2.1], by simp [h.2.2.1]⟩
        · exact ⟨.uppers, by simp [camelStep, camelStart, hwc, h.1, h.2.1],
            by simp [h.2.1], by simp, by simp [h.2.2.1]⟩
        · exact absurd ⟨hp.1, h.1⟩ hdl1
      · -- after an uppercase letter
        rw [hu hp.1]
        rcases camel_byte_facts c hwc with h | h | h
        · exact ⟨.digits, by simp [camelStep, camelStart, hwc, h.1, h.2.1, h.2.2.1],
            by simp, by simp [h.2.1], by simp [h.2.2.1]⟩
        · exact absurd ⟨hp.1, h.1⟩ huu1
        · exact ⟨.lowers, by simp [camelStep, h.1, h.2.2.1],
            by simp [h.2.1], by simp [h.2.2.1], by simp⟩
      · -- after a lowercase letter
        rw [hl hp.1]
        rcases camel_byte_facts c hwc with h | h | h
        · exact ⟨.digits, by simp [camelStep, camelStart, hwc, h.1, h.2.2.1],
            by simp, by simp [h.2.1], by simp [h.2.2.1]⟩
        · exact ⟨.uppers, by simp [camelStep, camelStart, hwc, h.1, h.2.1, h.2.2.1],
            by simp [h.2.1], by simp, by simp [h.2.2.1]⟩
        · exact ⟨.lowers, by simp [camelStep, h.1],
            by simp [h.2.1], by simp [h.2.2.1], by simp⟩
    obtain ⟨ph1, hs, h1, h2, h3⟩ := hstep
    rw [camelScan, hs]
    simp only [List.cons.injEq, true_and]
    exact ih c ph1 h1 h2 h3 hwc hwcs huu.2 hdl.2

theorem camelStep_cases (ph : CamelPhase) (c : Byte) :
    (camelStep ph c = (none, .start)) ∨
      ∃ b ph1, camelStep ph c = (some b, ph1) ∧ isWord b = true ∧
        (isDigit b = true → ph1 = .digits) ∧
        ((ph = .start ∨ ph = .digits) → isLower b = false) := by
  by_cases hw : isWord c = false
  · left
    obtain ⟨hd, hu, hl⟩ := not_word_facts c hw
    cases ph <;> simp [camelStep, camelStart, hw, hd, hu, hl]
  · right
    have hwc : isWord c = true := by simpa using hw
    rcases camel_byte_facts c hwc with h | h | h
    · refine ⟨c, .digits, ?_, hwc, fun _ => rfl, fun _ => h.2.2.1⟩
      cases ph <;> simp [camelStep, camelStart, hwc, h.1, h.2.1, h.2.2.1]
    · cases ph with
      | start =>
        exact ⟨c, .uppers, by simp [camelStep, camelStart, hwc, h.1, h.2.1],
          hwc, by simp [h.2.1], fun _ => h.2.2.1⟩
      | digits =>
        exact ⟨c, .uppers, by simp [camelStep, camelStart, hwc, h.1, h.2.1],
          hwc, by simp [h.2.1], fun _ => h.2.2.1⟩
      | uppers =>
        refine ⟨toLower c, .uppers, by simp [camelStep, h.1], h.2.2.2.2.1, ?_, by simp⟩
        intro hdig
        rcases camel_byte_facts (toLower c) h.2.2.2.2.1 with h1 | h1 | h1
        · rw [h.2.2.2.1] at h1; exact absurd h1.2.2.1 (by simp)
        · rw [h.2.2.2.1] at h1; exact absurd h1.2.2.1 (by simp)
        · rw [h1.2.1] at hdig; exact absurd hdig (by simp)
      | lowers =>
        exact ⟨c, .uppers, by simp [camelStep, camelStart, hwc, h.1, h.2.1, h.2.2.1],
          hwc, by simp [h.2.1], by simp⟩
    · have hup := h.2.2.2.2.1
      have hwu := h.2.2.2.2.2.1
      have hnotlow : isLower (toUpperByte c) = false ∧ isDigit (toUpperByte c) = false := by
        rcases camel_byte_facts (toUpperByte c) hwu with h1 | h1 | h1
        · rw [hup] at h1; exact absurd h1.2.1 (by simp)
        · exact ⟨h1.2.2.1, h1.2.1⟩
        · rw [hup] at h1; exact absurd h1.2.2.1 (by simp)
      cases ph with
      | start =>
        exact ⟨toUpperByte c, .lowers,
          by simp [camelStep, camelStart, hwc, h.2.1, h.2.2.1],
          hwu, by simp [hnotlow.2], fun _ => hnotlow.1⟩
      | digits =>
        exact ⟨toUpperByte c, .lowers,
          by simp [camelStep, camelStart, hwc, h.2.1, h.2.2.1],
          hwu, by simp [hnotlow.2], fun _ => hnotlow.1⟩
      | uppers =>
        exact ⟨c, .lowers, by simp [camelStep, h.1, h.2.2.1], hwc, by simp [h.2.1], by simp⟩
      | lowers =>
        exact ⟨c, .lowers, by simp [camelStep, h.1], hwc, by simp [h.2.1], by simp⟩

theorem camelScan_shape (s : List Byte) :
    ∀ ph : CamelPhase,
      (∀ b ∈ camelScan ph s, isWord b = true) ∧
        List.Chain' (fun a b => ¬ (isDigit a = true ∧ isLower b = true)) (camelScan ph s) ∧
        ((ph = .start ∨ ph = .digits) →
          ∀ x, (camelScan ph s).head? = some x → isLower x = false) := by
  induction s with
  | nil => intro ph; simp [camelScan]
  | cons c cs ih =>
    intro ph
    rcases camelStep_cases ph c with hnone | ⟨b, ph1, hsome, hwb, hdig, hlow⟩
    · rw [camelScan, hnone]
      obtain ⟨h1, h2, h3⟩ := ih .start
      exact ⟨h1, h2, fun _ => h3 (Or.inl rfl)⟩
    · rw [camelScan, hsome]
      obtain ⟨h1, h2, h3⟩ := ih ph1
      refine ⟨?_, ?_, ?_⟩
      · intro x hx
        rcases List.mem_cons.mp hx with h | h
        · rw [h]; exact hwb
        · exact h1 x h
      · rw [List.chain'_cons']
        refine ⟨?_, h2⟩
        intro y hy hby
        have := h3 (Or.inr (hdig hby.1)) y hy
        rw [this] at hby
        exact absurd hby.2 (by simp)
      · intro hph x hx
        simp only [List.head?_cons, Option.some.injEq] at hx
        rw [← hx]
        exact hlow hph

theorem PascalCase_eq (s : List Byte) :
    PascalCase s = some
      (match Camelcase s with
        | [] => []
        | c :: cs => ToUpper [c] ++ cs) := by
  unfold PascalCase
  cases h : Camelcase s with
  | nil => rfl
  | cons c cs =>
    have h1 : sliceBytes (c :: cs) 0 1 = some [c] := by
      rw [sliceBytes_take _ 1 (by omega) (by simp)]
      rfl
    have h2 : sliceBytes (c :: cs) 1 ((c :: cs).length : Int) = some cs := by
      unfold sliceBytes
      rw [if_pos ⟨by omega, by simp, le_refl _⟩]
      simp
    simp only [List.length_cons, gt_iff_lt, Nat.zero_lt_succ, if_true]
    rw [h1]
    simp only [Option.bind_eq_bind, Option.some_bind]
    rw [show ((cs.length + 1 : Nat) : Int) = (((c :: cs).length : Nat) : Int) from rfl, h2]
    rfl

theorem ToUpper_ascii (c : Byte) (hc : c.val < 128) : ToUpper [c] = [toUpperByte c] := by
  simp [ToUpper, hc]

theorem camelScan_head (s : List Byte) :
    camelScan .start s = [] ∨
      ∃ b rest, camelScan .start s = b :: rest ∧ isWord b = true ∧ isLower b = false ∧
        (∀ x ∈ rest, isWord x = true) ∧
        List.Chain' (fun a b => ¬ (isDigit a = true ∧ isLower b = true)) (b :: rest) := by
  obtain ⟨h1, h2, h3⟩ := camelScan_shape s .start
  cases h : camelScan .start s with
  | nil => exact Or.inl rfl
  | cons b rest =>
    rw [h] at h1 h2 h3
    exact Or.inr ⟨b, rest, rfl, h1 b (by simp), h3 (Or.inl rfl) b rfl,
      fun x hx => h1 x (List.mem_cons_of_mem _ hx), h2⟩

theorem camelScan_start_fixed (b : Byte) (rest : List Byte) (hwb : isWord b = true)
    (hlow : isLower b = false) (hw : ∀ x ∈ rest, isWord x = true)
    (huu : List.Chain' (fun a b => ¬ (isUpper a = true ∧ isUpper b = true)) (b :: rest))
    (hdl : List.Chain' (fun a b => ¬ (isDigit a = true ∧ isLower b = true)) (b :: rest)) :
    camelScan .start (b :: rest) = b :: rest := by
  rcases camel_byte_facts b hwb with h | h | h
  · have hs : camelStep .start b = (some b, .digits) := by simp [camelStep, camelStart, hwb, h.1]
    rw [camelScan, hs]
    simp only [List.cons.injEq, true_and]
    exact camelScan_fixed rest b .digits (fun _ => rfl) (by simp [h.2.1]) (by simp [h.2.2.1])
      hwb hw huu hdl
  · have hs : camelStep .start b = (some b, .uppers) := by
      simp [camelStep, camelStart, hwb, h.1, h.2.1]
    rw [camelScan, hs]
    simp only [List.cons.injEq, true_and]
    exact camelScan_fixed rest b .uppers (by simp [h.2.1]) (fun _ => rfl) (by simp [h.2.2.1])
      hwb hw huu hdl
  · rw [hlow] at h; exact absurd h.1 (by simp)

theorem noUpperPair_of_check (l : List Byte)
    (h : (l.zip l.tail).all (fun p => !(isUpper p.1 && isUpper p.2)) = true) :
    List.Chain' (fun a b => ¬ (isUpper a = true ∧ isUpper b = true)) l := by
  induction l with
  | nil => exact List.chain'_nil
  | cons a t ih =>
    cases t with
    | nil => exact List.chain'_singleton a
    | cons b u =>
      simp only [List.tail_cons, List.zip_cons_cons, List.all_cons, Bool.and_eq_true,
        Bool.not_eq_true', Bool.and_eq_false_iff] at h
      rw [List.chain'_cons]
      refine ⟨?_, ih ?_⟩
      · intro hab
        rcases h.1 with h1 | h1
        · rw [h1] at hab; exact absurd hab.1 (by simp)
        · rw [h1] at hab; exact absurd hab.2 (by simp)
      · simpa using h.2

/-- C13 as stated fails: `CamelCase("a b c")` is `"aBC"` and `CamelCase("aBC")` is `"aBc"`;
`PascalCase("a b")` is `"AB"` and `PascalCase("AB")` is `"Ab"`. -/
theorem CamelCase_PascalCase_not_idempotent :
    CamelCase (bytesOf "a b c") = bytesOf "aBC" ∧ CamelCase (bytesOf "aBC") = bytesOf "aBc" ∧
      CamelCase (CamelCase (bytesOf "a b c")) ≠ CamelCase (bytesOf "a b c") ∧
      PascalCase (bytesOf "a b") = some (bytesOf "AB") ∧
      PascalCase (bytesOf "AB") = some (bytesOf "Ab") := by
  refine ⟨?_, ?_, ?_, ?_, ?_⟩ <;> decide

/-- C13, amended: `CamelCase(CamelCase(s)) = CamelCase(s)` for every `s` such that
`CamelCase(s)` has no two adjacent uppercase letters, and `PascalCase(PascalCase(s)) =
PascalCase(s)` for every `s` such that `PascalCase(s)` has no two adjacent uppercase
letters. -/
theorem CamelCase_PascalCase_idempotent (s : List Byte) :
    (List.Chain' (fun a b => ¬ (isUpper a = true ∧ isUpper b = true)) (CamelCase s) →
        CamelCase (CamelCase s) = CamelCase s) ∧
      (∀ r, PascalCase s = some r →
        List.Chain' (fun a b => ¬ (isUpper a = true ∧ isUpper b = true)) r →
        PascalCase r = some r) := by
  rcases camelScan_head s with h0 | ⟨b, rest, hraw, hwb, hlow, hw, hdl⟩
  · have hc : Camelcase s = [] := by unfold Camelcase; rw [h0]; rfl
    constructor
    · intro _
      unfold CamelCase
      rw [hc]
      rfl
    · intro r hr _
      rw [PascalCase_eq, hc] at hr
      simp only [Option.some.injEq] at hr
      rw [← hr]
      rfl
  · have hc : Camelcase s = toLower b :: rest := by unfold Camelcase; rw [hraw]; rfl
    have hdl2 := List.chain'_cons'.mp hdl
    constructor
    · intro huu
      unfold CamelCase at huu ⊢
      rw [hc] at huu ⊢
      have huu2 := List.chain'_cons'.mp huu
      rcases camel_byte_facts b hwb with h | h | h
      · -- the text begins with a digit
        rw [h.2.2.2.1] at huu ⊢
        unfold Camelcase
        rw [camelScan_start_fixed b rest hwb hlow hw huu hdl]
        simp [lowerFirst, h.2.2.2.1]
      · -- the text begins with a letter
        have hs : camelStep .start (toLower b) = (some b, .lowers) := by
          simp [camelStep, camelStart, h.2.2.2.2.1, h.2.2.2.1, h.2.2.2.2.2.1]
          rcases camel_byte_facts (toLower b) h.2.2.2.2.1 with h1 | h1 | h1
          · rw [h.2.2.2.1] at h1; exact absurd h1.2.2.1 (by simp)
          · rw [h.2.2.2.1] at h1; exact absurd h1.2.2.1 (by simp)
          · simp [h1.2.1, h1.2.2.1]
        have hfix : camelScan .lowers rest = rest :=
          camelScan_fixed rest (toLower b) .lowers
            (by
              intro hd
              rcases camel_byte_facts (toLower b) h.2.2.2.2.1 with h1 | h1 | h1
              · rw [h.2.2.2.1] at h1; exact absurd h1.2.2.1 (by simp)
              · rw [h.2.2.2.1] at h1; exact absurd h1.2.2.1 (by simp)
              · rw [h1.2.1] at hd; exact absurd hd (by simp))
            (by
              intro hu
              rcases camel_byte_facts (toLower b) h.2.2.2.2.1 with h1 | h1 | h1
              · rw [h.2.2.2.1] at h1; exact absurd h1.2.2.1 (by simp)
              · rw [h.2.2.2.1] at h1; exact absurd h1.2.2.1 (by simp)
              · rw [h1.2.2.1] at hu; exact absurd hu (by simp))
            (fun _ => rfl) h.2.2.2.2.1 hw huu
            (by
              rw [List.chain'_cons']
              refine ⟨?_, hdl2.2⟩
              intro y _ hy
              rcases camel_byte_facts (toLower b) h.2.2.2.2.1 with h1 | h1 | h1
              · rw [h.2.2.2.1] at h1; exact absurd h1.2.2.1 (by simp)
              · rw [h.2.2.2.1] at h1; exact absurd h1.2.2.1 (by simp)
              · rw [h1.2.1] at hy; exact absurd hy.1 (by simp))
        unfold Camelcase
        rw [camelScan, hs]
        simp only
        rw [hfix]
        rfl
      · rw [hlow] at h; exact absurd h.1 (by simp)
    · intro r hr huu
      have hback : ToUpper [toLower b] = [b] := by
        rcases camel_byte_facts b hwb with h | h | h
        · rw [h.2.2.2.1, ToUpper_ascii b h.2.2.2.2.2, h.2.2.2.2.1]
        · rw [ToUpper_ascii _ h.2.2.2.2.2.2, h.2.2.2.2.2.1]
        · rw [hlow] at h; exact absurd h.1 (by simp)
      rw [PascalCase_eq, hc] at hr
      simp only [hback, List.singleton_append, Option.some.injEq] at hr
      rw [← hr] at huu ⊢
      have hc2 : Camelcase (b :: rest) = toLower b :: rest := by
        unfold Camelcase
        rw [camelScan_start_fixed b rest hwb hlow hw huu hdl]
        rfl
      rw [PascalCase_eq, hc2]
      simp only [hback, List.singleton_append]

/-- Witness of the amended C13 on the first row of `TestCamelCase` and of
`TestPascalCase`. -/
theorem CamelCase_PascalCase_idempotent_witness :
    CamelCase (CamelCase (bytesOf "sample text")) = CamelCase (bytesOf "sample text") ∧
      PascalCase (bytesOf "SampleText") = some (bytesOf "SampleText") :=
  ⟨(CamelCase_PascalCase_idempotent (bytesOf "sample text")).1
      (noUpperPair_of_check _ (by decide)),
    (CamelCase_PascalCase_idempotent (bytesOf "sample text")).2 (bytesOf "SampleText")
      (by decide) (noUpperPair_of_check _ (by decide))⟩


/-! ## RandomString -/

theorem mapM_lookup (draw : Nat → Nat) (hd : ∀ i, draw i < 62) (l : List Nat) :
    ∃ r, l.mapM (fun i => possibleChars[draw i]?) = some r ∧ r.length = l.length ∧
      ∀ b ∈ r, b ∈ possibleChars := by
  induction l with
  | nil => exact ⟨[], rfl, rfl, by simp⟩
  | cons i is ih =>
    obtain ⟨r, hr, hlen, hmem⟩ := ih
    have hlt : draw i < possibleChars.length := by
      have : possibleChars.length = 62 := by decide
      rw [this]; exact hd i
    refine ⟨possibleChars[draw i] :: r, ?_, by simp [hlen], ?_⟩
    · rw [List.mapM_cons, List.getElem?_eq_getElem hlt, hr]
      rfl
    · intro b hb
      rcases List.mem_cons.mp hb with h | h
      · rw [h]; exact List.getElem_mem hlt
      · exact hmem b h

/-- C17: for every `n >= 0` and every random source whose draws are indices in `[0, 62)`,
`RandomString(n)` returns a text of exactly `n` bytes, each of them a member of the
alphabet `possibleChars`, which consists of the 62 characters `a-z`, `A-Z`, `0-9`. -/
theorem RandomString_length_alphabet (draw : Nat → Nat) (n : Int) (hn : 0 ≤ n)
    (hd : ∀ i, draw i < 62) :
    (∃ r, RandomString draw n = some r ∧ (r.length : Int) = n ∧ ∀ b ∈ r, b ∈ possibleChars) ∧
      possibleChars.length = 62 ∧ possibleChars.Nodup ∧
      possibleChars.all (fun b => isLower b || isUpper b || isDigit b) = true := by
  refine ⟨?_, by decide, by decide, by decide⟩
  obtain ⟨r, hr, hlen, hmem⟩ := mapM_lookup draw hd (List.range n.toNat)
  refine ⟨r, ?_, ?_, hmem⟩
  · unfold RandomString
    rw [if_neg (by omega), hr]
  · rw [hlen, List.length_range]
    omega

/-- Witness of C17 with `n = 10`, a length of `TestRandomStringLength`, and the draws
`7 i mod 62`. -/
theorem RandomString_length_alphabet_witness :
    ∃ r, RandomString (fun i => 7 * i % 62) 10 = some r ∧ (r.length : Int) = 10 ∧
      ∀ b ∈ r, b ∈ possibleChars :=
  (RandomString_length_alphabet (fun i => 7 * i % 62) 10 (by decide)
    (fun i => Nat.mod_lt _ (by decide))).1

/-! ## Shorten with a suffix longer than the budget -/

theorem accumulate_nil_of_lt (length : Int) (appendStr : List Byte)
    (h : length < (appendStr.length : Int)) (parts : List (List Byte)) :
    accumulate length appendStr [] parts = [] := by
  induction parts with
  | nil => rfl
  | cons part parts ih =>
    unfold accumulate
    split
    · exact ih
    · rw [if_neg]
      simp only [List.length_nil, Nat.cast_zero, zero_add]
      omega

/-- C18 as stated fails at the smallest `int`: in `Shorten("abcdef", -2^63, "...")` the
budget is below the length of the suffix and below the length of the text, yet the end
index `maxLen - len(suffix)` wraps around to `9223372036854775805` and is not negative.
`Shorten` fails all the same, the index being beyond the text. -/
theorem end_index_wraps :
    (-9223372036854775808 : Int) < ((bytesOf "...").length : Int) ∧
      (-9223372036854775808 : Int) < ((normalize (bytesOf "abcdef")).length : Int) ∧
      int64SubLen (-9223372036854775808) (bytesOf "...").length = 9223372036854775805 ∧
      ¬ (int64SubLen (-9223372036854775808) (bytesOf "...").length < 0) ∧
      Shorten (bytesOf "abcdef") (-9223372036854775808) (bytesOf "...") = none := by
  refine ⟨?_, ?_, ?_, ?_, ?_⟩ <;> decide

/-- C18, amended: for `maxLen < len(suffix)` and a normalized text longer than `maxLen`,
the loop of `Shorten` accumulates no word.  When `maxLen - len(suffix)` is at least
`-2^63`, the end index of the fallback substring is this negative number and `Shorten`
fails on that slice.  Below `-2^63` the end index wraps around to
`maxLen - len(suffix) + 2^64`; for an `int` `maxLen` and texts that fit in memory
(`len(normalize(s)) + len(suffix) < 2^63`) it lies beyond the normalized text and
`Shorten` fails on that slice as well. -/
theorem Shorten_fails_of_short_budget (s suffix : List Byte) (maxLen : Int)
    (h1 : maxLen < (suffix.length : Int)) (h2 : maxLen < ((normalize s).length : Int)) :
    accumulate maxLen suffix [] (splitSpaces (normalize s)) = [] ∧
      (-9223372036854775808 ≤ maxLen - (suffix.length : Int) →
        int64SubLen maxLen suffix.length = maxLen - (suffix.length : Int) ∧
        int64SubLen maxLen suffix.length < 0 ∧
        kept (normalize s) maxLen suffix = none ∧
        Shorten s maxLen suffix = none) ∧
      (maxLen - (suffix.length : Int) < -9223372036854775808 →
        int64SubLen maxLen suffix.length =
          maxLen - (suffix.length : Int) + 18446744073709551616 ∧
        (-9223372036854775808 ≤ maxLen →
          ((normalize s).length : Int) + (suffix.length : Int) < 9223372036854775808 →
          ((normalize s).length : Int) < int64SubLen maxLen suffix.length ∧
          kept (normalize s) maxLen suffix = none ∧
          Shorten s maxLen suffix = none)) := by
  have hacc := accumulate_nil_of_lt maxLen suffix h1 (splitSpaces (normalize s))
  have hfail : sliceBytes (normalize s) 0 (int64SubLen maxLen suffix.length) = none →
      kept (normalize s) maxLen suffix = none ∧ Shorten s maxLen suffix = none := by
    intro hslice
    have hkept : kept (normalize s) maxLen suffix = none := by
      unfold kept
      simp only
      rw [hacc, if_pos rfl, hslice]
    refine ⟨hkept, ?_⟩
    unfold Shorten
    simp only
    rw [if_neg (by omega), hkept]
    rfl
  refine ⟨hacc, ?_, ?_⟩
  · intro hno
    have heq := int64SubLen_eq maxLen suffix.length hno
    have hneg : int64SubLen maxLen suffix.length < 0 := by rw [heq]; omega
    refine ⟨heq, hneg, hfail ?_⟩
    unfold sliceBytes
    rw [if_neg]
    omega
  · intro hwrap
    have heq : int64SubLen maxLen suffix.length =
        maxLen - (suffix.length : Int) + 18446744073709551616 := by
      unfold int64SubLen
      rw [if_pos hwrap]
    refine ⟨heq, ?_⟩
    intro hmin hmem
    have hbig : ((normalize s).length : Int) < int64SubLen maxLen suffix.length := by
      rw [heq]; omega
    refine ⟨hbig, hfail ?_⟩
    unfold sliceBytes
    rw [if_neg]
    omega

/-- Witness of the amended C18 on `Shorten("abcdef", 2, "...")`, where the end index is
`-1`, and on `Shorten("abcdef", -2^63 + 1, "...")`, where it wraps around. -/
theorem Shorten_fails_of_short_budget_witness :
    Shorten (bytesOf "abcdef") 2 (bytesOf "...") = none ∧
      Shorten (bytesOf "abcdef") (-9223372036854775807) (bytesOf "...") = none :=
  ⟨((Shorten_fails_of_short_budget (bytesOf "abcdef") (bytesOf "...") 2
      (by decide) (by decide)).2.1 (by decide)).2.2.2,
    (((Shorten_fails_of_short_budget (bytesOf "abcdef") (bytesOf "...") (-9223372036854775807)
      (by decide) (by decide)).2.2 (by decide)).2 (by decide) (by decide)).2.2⟩

/-! ## The replacement strings of the table -/

/-- C20 as stated fails: the replacement of `Ð` is `Eth`, an ASCII string of three
characters. -/
theorem replacement_longer_than_two :
    ¬ (∀ p ∈ specialCharsPairs,
        p.2.toList.all (fun c => c.toNat < 128) = true ∧ (p.2.length = 1 ∨ p.2.length = 2)) := by
  intro h
  have := (h ("Ð", "Eth") (by decide)).2
  revert this
  decide

/-- C20, amended: every replacement string of the table is an ASCII string of one or two
characters, except the replacements `Eth`, `eth` (three characters) of `Ð`, `ð` and
`Thorn`, `thorn` (five characters) of `Þ`, `þ`. -/
theorem replacement_strings :
    (∀ p ∈ specialCharsPairs,
        p.2.toList.all (fun c => c.toNat < 128) = true ∧
          (p.2.length = 1 ∨ p.2.length = 2 ∨
            p ∈ [("Ð", "Eth"), ("ð", "eth"), ("Þ", "Thorn"), ("þ", "thorn")])) ∧
      specialCharsReplacer.all (fun p => p.2.all (fun b => b.val < 128)) = true := by
  constructor <;> decide

/-! ## The shape of a normalized text -/

theorem isSpace_32 : isSpace 32 = true := by decide

theorem reLinesAndCharsScan_shape (x : List Byte) :
    ∀ inMatch : Bool,
      (∀ b ∈ reLinesAndCharsScan inMatch x, isSpace b = true → b = 32) ∧
        List.Chain' (fun a b => ¬ (a = 32 ∧ b = 32)) (reLinesAndCharsScan inMatch x) ∧
        (inMatch = true → (reLinesAndCharsScan inMatch x).head? ≠ some 32) := by
  induction x with
  | nil => intro _; simp [reLinesAndCharsScan]
  | cons c cs ih =>
    intro inMatch
    by_cases hc : isSpace c = true
    · cases inMatch with
      | true =>
        simpa [reLinesAndCharsScan, hc] using ih true
      | false =>
        obtain ⟨h1, h2, h3⟩ := ih true
        simp only [reLinesAndCharsScan, hc, if_true, Bool.false_eq_true, if_false]
        refine ⟨?_, ?_, by simp⟩
        · intro b hb hsp
          rcases List.mem_cons.mp hb with h | h
          · exact h
          · exact h1 b h hsp
        · rw [List.chain'_cons']
          refine ⟨?_, h2⟩
          intro y hy hxy
          exact h3 rfl (by rw [Option.mem_def.mp hy, hxy.2])
    · obtain ⟨h1, h2, _⟩ := ih false
      have hc32 : c ≠ 32 := by
        intro h
        rw [h] at hc
        exact hc isSpace_32
      simp only [reLinesAndCharsScan, hc, Bool.false_eq_true, if_false]
      refine ⟨?_, ?_, ?_⟩
      · intro b hb hsp
        rcases List.mem_cons.mp hb with h | h
        · rw [h] at hsp; exact absurd hsp hc
        · exact h1 b h hsp
      · rw [List.chain'_cons']
        exact ⟨fun y _ hxy => hc32 hxy.1, h2⟩
      · intro _
        simpa using hc32

theorem reSpaceBeforePunctuationReplace_mem (x : List Byte) :
    ∀ b ∈ reSpaceBeforePunctuationReplace x, b ∈ x := by
  induction x with
  | nil => simp [reSpaceBeforePunctuationReplace]
  | cons c cs ih =>
    intro b hb
    unfold reSpaceBeforePunctuationReplace at hb
    split at hb
    · exact List.mem_cons_of_mem _ (ih b hb)
    · rcases List.mem_cons.mp hb with h | h
      · rw [h]; simp
      · exact List.mem_cons_of_mem _ (ih b h)

theorem reSpaceBeforePunctuationReplace_shape (x : List Byte)
    (hsp : ∀ b ∈ x, isSpace b = true → b = 32)
    (hch : List.Chain' (fun a b => ¬ (a = 32 ∧ b = 32)) x) :
    List.Chain' (fun a b => ¬ (a = 32 ∧ (b = 32 ∨ isPunct b = true)))
      (reSpaceBeforePunctuationReplace x) := by
  induction x with
  | nil => simp [reSpaceBeforePunctuationReplace]
  | cons c cs ih =>
    rw [List.chain'_cons'] at hch
    have ihcs := ih (fun b hb => hsp b (List.mem_cons_of_mem _ hb)) hch.2
    unfold reSpaceBeforePunctuationReplace
    split
    · exact ihcs
    · rename_i hcond
      rw [List.chain'_cons']
      refine ⟨?_, ihcs⟩
      intro z hz hcz
      have hc : c = 32 := hcz.1
      have hbp : beforePunctuation cs = false := by
        rw [hc, isSpace_32] at hcond
        simpa using hcond
      cases cs with
      | nil => simp [reSpaceBeforePunctuationReplace] at hz
      | cons d ds =>
        have hd32 : d ≠ 32 := fun h => hch.1 d (by simp) ⟨hc, h⟩
        have hdsp : isSpace d = false := by
          by_contra h
          exact hd32 (hsp d (by simp) (by simpa using h))
        have hdp : isPunct d = false := by
          simpa [beforePunctuation, hdsp] using hbp
        have hzd : z = d := by
          simp only [reSpaceBeforePunctuationReplace, hdsp, Bool.false_and, Bool.false_eq_true,
            if_false, List.head?_cons, Option.mem_def, Option.some.injEq] at hz
          exact hz.symm
        rw [hzd] at hcz
        rcases hcz.2 with h | h
        · exact hd32 h
        · rw [hdp] at h; exact absurd h (by simp)

theorem trimSpaces_infix (x : List Byte) : trimSpaces x <:+: x := by
  have h1 : trimSpaces x <+: x.dropWhile (fun b => b = 32) := List.rdropWhile_prefix _ _
  exact h1.isInfix.trans (List.dropWhile_suffix _).isInfix

theorem trimSpaces_head (x : List Byte) : (trimSpaces x).head? ≠ some 32 := by
  have hpre : trimSpaces x <+: x.dropWhile (fun b => b = 32) := List.rdropWhile_prefix _ _
  obtain ⟨z, hz⟩ := hpre
  have hnot := List.head?_dropWhile_not (fun b : Byte => decide (b = 32)) x
  intro h
  cases ht : trimSpaces x with
  | nil => rw [ht] at h; simp at h
  | cons a as =>
    rw [ht] at h hz
    simp only [List.head?_cons, Option.some.injEq] at h
    rw [← hz] at hnot
    simp only [List.cons_append, List.head?_cons, decide_eq_false_iff_not] at hnot
    exact hnot h

theorem trimSpaces_last (x : List Byte) : (trimSpaces x).getLast? ≠ some 32 := by
  intro h
  have hne : trimSpaces x ≠ [] := by
    intro h0
    rw [h0] at h
    simp at h
  have hnot := List.rdropWhile_last_not (p := fun b : Byte => decide (b = 32))
    (l := x.dropWhile (fun b => b = 32)) hne
  rw [List.getLast?_eq_getLast _ hne, Option.some.injEq] at h
  apply hnot
  simpa using h

theorem splitSpaces_parts (x : List Byte) :
    ∃ (p : List Byte) (ps : List (List Byte)), splitSpaces x = p :: ps ∧
      (p = [] → x = [] ∨ x.head? = some 32) ∧
      ([] ∈ ps → x.getLast? = some 32 ∨ ¬ List.Chain' (fun a b => ¬ (a = 32 ∧ b = 32)) x) := by
  induction x with
  | nil => exact ⟨[], [], rfl, fun _ => Or.inl rfl, by simp⟩
  | cons c cs ih =>
    obtain ⟨q, qs, hq, hq1, hq2⟩ := ih
    have lift : (cs.getLast? = some 32 ∨ ¬ List.Chain' (fun a b => ¬ (a = 32 ∧ b = 32)) cs) →
        ((c :: cs).getLast? = some 32 ∨
          ¬ List.Chain' (fun a b => ¬ (a = 32 ∧ b = 32)) (c :: cs)) := by
      rintro (h | h)
      · left
        cases cs with
        | nil => simp at h
        | cons d ds => rw [List.getLast?_cons_cons]; exact h
      · right
        intro hc
        exact h (List.chain'_cons'.mp hc).2
    by_cases hc : c = 32
    · refine ⟨[], q :: qs, by simp [splitSpaces, hc, hq], fun _ => Or.inr (by simp [hc]), ?_⟩
      intro hmem
      rcases List.mem_cons.mp hmem with h | h
      · rcases hq1 h.symm with h0 | h0
        · left; rw [h0, hc]; rfl
        · right
          intro hch
          cases cs with
          | nil => simp at h0
          | cons d ds =>
            simp only [List.head?_cons, Option.some.injEq] at h0
            exact (List.chain'_cons'.mp hch).1 d (by simp) ⟨hc, h0⟩
      · exact lift (hq2 h)
    · refine ⟨c :: q, qs, by simp [splitSpaces, hc, hq], by simp, fun hmem => lift (hq2 hmem)⟩

/-- C19: the text that `Shorten` works on after its three preparation steps contains no
tab, CR or LF (and no form feed), has no two consecutive spaces, neither begins nor ends
with a space, and has no space directly before one of `. , ; ! ?`; hence, when it is not
empty, its split on single spaces has no empty part. -/
theorem normalize_shape (s : List Byte) :
    (∀ b ∈ normalize s, b ≠ 9 ∧ b ≠ 13 ∧ b ≠ 10 ∧ b ≠ 12) ∧
      List.Chain' (fun a b => ¬ (a = 32 ∧ b = 32)) (normalize s) ∧
      (normalize s).head? ≠ some 32 ∧ (normalize s).getLast? ≠ some 32 ∧
      List.Chain' (fun a b => ¬ (a = 32 ∧ isPunct b = true)) (normalize s) ∧
      (normalize s ≠ [] → [] ∉ splitSpaces (normalize s)) := by
  obtain ⟨h1, h2, _⟩ := reLinesAndCharsScan_shape s false
  have hsp2 : ∀ b ∈ reSpaceBeforePunctuationReplace (reLinesAndCharsReplace s),
      isSpace b = true → b = 32 :=
    fun b hb => h1 b (reSpaceBeforePunctuationReplace_mem _ b hb)
  have hch2 := reSpaceBeforePunctuationReplace_shape (reLinesAndCharsReplace s) h1 h2
  have hinf : normalize s <:+: reSpaceBeforePunctuationReplace (reLinesAndCharsReplace s) :=
    trimSpaces_infix _
  have hch3 := hch2.infix hinf
  have hdouble : List.Chain' (fun a b => ¬ (a = 32 ∧ b = 32)) (normalize s) :=
    hch3.imp (fun a b h hab => h ⟨hab.1, Or.inl hab.2⟩)
  have hhead : (normalize s).head? ≠ some 32 := trimSpaces_head _
  have hlast : (normalize s).getLast? ≠ some 32 := trimSpaces_last _
  refine ⟨?_, hdouble, hhead, hlast, hch3.imp (fun a b h hab => h ⟨hab.1, Or.inr hab.2⟩), ?_⟩
  · intro b hb
    have h32 := hsp2 b (hinf.subset hb)
    refine ⟨?_, ?_, ?_, ?_⟩ <;> intro h <;> rw [h] at h32 <;> exact absurd (h32 (by decide)) (by decide)
  · intro hne hmem
    obtain ⟨p, ps, hp, hp1, hp2⟩ := splitSpaces_parts (normalize s)
    rw [hp] at hmem
    rcases List.mem_cons.mp hmem with h | h
    · rcases hp1 h.symm with h0 | h0
      · exact hne h0
      · exact hhead h0
    · rcases hp2 h with h0 | h0
      · exact hlast h0
      · exact h0 hdouble

/-! ## Shorten applied twice -/

theorem normalize_normalized (s : List Byte) : Normalized (normalize s) := by
  obtain ⟨h1, h2, _⟩ := reLinesAndCharsScan_shape s false
  have hch2 := reSpaceBeforePunctuationReplace_shape (reLinesAndCharsReplace s) h1 h2
  have hinf : normalize s <:+: reSpaceBeforePunctuationReplace (reLinesAndCharsReplace s) :=
    trimSpaces_infix _
  refine ⟨?_, hch2.infix hinf, trimSpaces_head _, trimSpaces_last _⟩
  intro b hb
  exact h1 b (reSpaceBeforePunctuationReplace_mem _ b (hinf.subset hb))

theorem reLinesAndCharsScan_of_normalized (x : List Byte)
    (hsp : ∀ b ∈ x, isSpace b = true → b = 32)
    (hch : List.Chain' (fun a b => ¬ (a = 32 ∧ (b = 32 ∨ isPunct b = true))) x) :
    ∀ inMatch : Bool, (inMatch = true → x.head? ≠ some 32) →
      reLinesAndCharsScan inMatch x = x := by
  induction x with
  | nil => intro _ _; rfl
  | cons c cs ih =>
    intro inMatch hin
    rw [List.chain'_cons'] at hch
    have ihcs := ih (fun b hb => hsp b (List.mem_cons_of_mem _ hb)) hch.2
    by_cases hc : isSpace c = true
    · have hc32 : c = 32 := hsp c (by simp) hc
      have hfalse : inMatch = false := by
        cases inMatch with
        | false => rfl
        | true => exact absurd (by rw [hc32]; rfl) (hin rfl)
      have hhead : cs.head? ≠ some 32 := by
        intro h
        exact hch.1 32 (by rw [h]; rfl) ⟨hc32, Or.inl rfl⟩
      simp only [reLinesAndCharsScan, hc, if_true, hfalse, Bool.false_eq_true, if_false]
      rw [ihcs true (fun _ => hhead), hc32]
    · simp only [reLinesAndCharsScan, hc, Bool.false_eq_true, if_false]
      rw [ihcs false (fun h => absurd h (by simp))]

theorem reSpaceBeforePunctuationReplace_of_normalized (x : List Byte)
    (hsp : ∀ b ∈ x, isSpace b = true → b = 32)
    (hch : List.Chain' (fun a b => ¬ (a = 32 ∧ (b = 32 ∨ isPunct b = true))) x) :
    reSpaceBeforePunctuationReplace x = x := by
  induction x with
  | nil => rfl
  | cons c cs ih =>
    rw [List.chain'_cons'] at hch
    have ihcs := ih (fun b hb => hsp b (List.mem_cons_of_mem _ hb)) hch.2
    have hcond : (isSpace c && beforePunctuation cs) = false := by
      by_contra hne
      simp only [Bool.not_eq_false, Bool.and_eq_true] at hne
      obtain ⟨hc, hbp⟩ := hne
      have hc32 : c = 32 := hsp c (by simp) hc
      cases cs with
      | nil => simp [beforePunctuation] at hbp
      | cons d ds =>
        have hR := hch.1 d (by simp)
        by_cases hd : isSpace d = true
        · exact hR ⟨hc32, Or.inl (hsp d (by simp) hd)⟩
        · have : isPunct d = true := by simpa [beforePunctuation, hd] using hbp
          exact hR ⟨hc32, Or.inr this⟩
    simp only [reSpaceBeforePunctuationReplace, hcond, Bool.false_eq_true, if_false, ihcs]

theorem trimSpaces_of_normalized (x : List Byte)
    (hhead : x.head? ≠ some 32) (hlast : x.getLast? ≠ some 32) : trimSpaces x = x := by
  have h1 : x.dropWhile (fun b => decide (b = 32)) = x := by
    cases x with
    | nil => rfl
    | cons c cs =>
      have hc : c ≠ 32 := fun h => hhead (by rw [h]; rfl)
      simp [List.dropWhile, hc]
  have h2 : List.rdropWhile (fun b => decide (b = 32)) x = x := by
    rw [List.rdropWhile_eq_self_iff]
    intro hl h
    apply hlast
    rw [List.getLast?_eq_getLast _ hl]
    simpa using h
  unfold trimSpaces
  rw [h1]
  exact h2

theorem normalize_of_normalized (x : List Byte) (h : Normalized x) : normalize x = x := by
  obtain ⟨hsp, hch, hhead, hlast⟩ := h
  unfold normalize reLinesAndCharsReplace
  rw [reLinesAndCharsScan_of_normalized x hsp hch false (fun h => absurd h (by simp)),
    reSpaceBeforePunctuationReplace_of_normalized x hsp hch,
    trimSpaces_of_normalized x hhead hlast]

theorem Normalized_of_prefix (r x : List Byte) (hx : Normalized x) (hpre : r <+: x)
    (hlast : r.getLast? ≠ some 32) : Normalized r := by
  obtain ⟨hsp, hch, hhead, _⟩ := hx
  refine ⟨fun b hb => hsp b (hpre.subset hb), hch.infix hpre.isInfix, ?_, hlast⟩
  obtain ⟨t, ht⟩ := hpre
  cases r with
  | nil => simp
  | cons a as =>
    rw [← ht] at hhead
    simpa using hhead

theorem splitSpaces_ne_nil (x : List Byte) : splitSpaces x ≠ [] := by
  cases x with
  | nil => simp [splitSpaces]
  | cons c cs =>
    by_cases hc : c = 32
    · simp [splitSpaces, hc]
    · cases hs : splitSpaces cs <;> simp [splitSpaces, hc, hs]

theorem joinWith_splitSpaces (x : List Byte) : joinWith 32 (splitSpaces x) = x := by
  induction x with
  | nil => rfl
  | cons c cs ih =>
    by_cases hc : c = 32
    · cases hs : splitSpaces cs with
      | nil => exact absurd hs (splitSpaces_ne_nil cs)
      | cons p ps =>
        rw [hs] at ih
        simp only [splitSpaces, hc, if_true, hs, joinWith, List.nil_append, ih]
    · cases hs : splitSpaces cs with
      | nil => exact absurd hs (splitSpaces_ne_nil cs)
      | cons p ps =>
        rw [hs] at ih
        cases ps with
        | nil =>
          simp only [joinWith] at ih
          simp [splitSpaces, hc, hs, joinWith, ih]
        | cons q qs =>
          simp only [joinWith] at ih
          simp [splitSpaces, hc, hs, joinWith, ih]

theorem splitSpaces_no_space (x : List Byte) : ∀ p ∈ splitSpaces x, ∀ b ∈ p, b ≠ 32 := by
  induction x with
  | nil => simp [splitSpaces]
  | cons c cs ih =>
    intro p hp b hb
    by_cases hc : c = 32
    · simp only [splitSpaces, hc, if_true, List.mem_cons] at hp
      rcases hp with h | h
      · rw [h] at hb; simp at hb
      · exact ih p h b hb
    · cases hs : splitSpaces cs with
      | nil =>
        simp only [splitSpaces, hc, if_false, hs, List.mem_singleton] at hp
        rw [hp, List.mem_singleton] at hb
        rw [hb]; exact hc
      | cons q qs =>
        rw [hs] at ih
        simp only [splitSpaces, hc, if_false, hs, List.mem_cons] at hp
        rcases hp with h | h
        · rw [h] at hb
          rcases List.mem_cons.mp hb with h1 | h1
          · rw [h1]; exact hc
          · exact ih q (by simp) b h1
        · exact ih p (List.mem_cons_of_mem _ h) b hb

theorem joinWith_take_prefix (sep : Byte) (ws : List (List Byte)) :
    ∀ k, joinWith sep (ws.take k) <+: joinWith sep ws := by
  induction ws with
  | nil => intro k; simp [joinWith]
  | cons w ws ih =>
    intro k
    cases k with
    | zero => simp [joinWith]
    | succ k =>
      cases ws with
      | nil => simp [joinWith]
      | cons u us =>
        cases k with
        | zero => simp [joinWith]
        | succ k =>
          have := ih (k + 1)
          simp only [List.take_succ_cons, joinWith] at this ⊢
          exact (List.prefix_append_right_inj w).mpr ((List.prefix_cons_inj sep).mpr this)

theorem kept_normalized (x : List Byte) (hx : Normalized x) (maxLen : Int) (h0 : 0 ≤ maxLen)
    (hlen : maxLen < (x.length : Int)) :
    ∃ r, kept x maxLen [] = some r ∧ r <+: x ∧ r.getLast? ≠ some 32 ∧
      (r.length : Int) ≤ maxLen := by
  obtain ⟨hsp, hch, hhead, hlast⟩ := hx
  have hne : x ≠ [] := by
    intro h
    rw [h] at hlen
    simp at hlen
    omega
  have hdouble : List.Chain' (fun a b => ¬ (a = 32 ∧ b = 32)) x :=
    hch.imp (fun a b h hab => h ⟨hab.1, Or.inl hab.2⟩)
  obtain ⟨p, ps, hp, hp1, hp2⟩ := splitSpaces_parts x
  have hall : ∀ w ∈ p :: ps, w ≠ [] := by
    intro w hw hw0
    rw [hw0] at hw
    rcases List.mem_cons.mp hw with h | h
    · rcases hp1 h.symm with h1 | h1
      · exact hne h1
      · exact hhead h1
    · rcases hp2 h with h1 | h1
      · exact hlast h1
      · exact h1 hdouble
  have hno : ∀ w ∈ p :: ps, ∀ b ∈ w, b ≠ 32 := by
    rw [← hp]
    exact splitSpaces_no_space x
  have hjoin : joinWith 32 (p :: ps) = x := by
    rw [← hp]
    exact joinWith_splitSpaces x
  have hpne : p ≠ [] := hall p (by simp)
  obtain ⟨k, hk, hkl⟩ := kept_bound x [] maxLen (by simpa using h0) hlen
  refine ⟨k, hk, ?_, ?_, by simpa using hkl⟩
  · -- the kept text is a prefix of the text
    unfold kept at hk
    simp only at hk
    rw [hp] at hk
    by_cases hfit : ((p.length : Int) < maxLen)
    · have hacc : accumulate maxLen [] [] (p :: ps) = accumulate maxLen [] (joinWords [p]) ps := by
        conv_lhs => unfold accumulate
        simp [hpne, hfit, joinWith]
      obtain ⟨j, _, hjacc, _⟩ := accumulate_words maxLen [] ps [p] (by simp)
        (by intro w hw; rw [List.mem_singleton.mp hw]; exact hpne)
        (fun w hw => hall w (List.mem_cons_of_mem _ hw))
      have hpos : 0 < (joinWords ([p] ++ ps.take j)).length :=
        joinWords_length_pos _ (by simp) (by
          intro w hw
          rcases List.mem_append.mp hw with h | h
          · rw [List.mem_singleton.mp h]; exact hpne
          · exact hall w (List.mem_cons_of_mem _ (List.mem_of_mem_take h)))
      rw [hacc, hjacc, if_neg (List.length_pos.mp hpos), Option.some.injEq] at hk
      rw [← hk, ← hjoin]
      have := joinWith_take_prefix 32 (p :: ps) (j + 1)
      simpa using this
    · have hacc : accumulate maxLen [] [] (p :: ps) = [] := by
        unfold accumulate
        simp [hpne, hfit]
      rw [hacc, if_pos rfl, int64SubLen_eq _ _ (by simp; omega),
        sliceBytes_take x _ (by simpa using h0) (by simp; omega), Option.some.injEq] at hk
      rw [← hk]
      exact List.take_prefix _ _
  · -- the kept text does not end with a space
    unfold kept at hk
    simp only at hk
    rw [hp] at hk
    by_cases hfit : ((p.length : Int) < maxLen)
    · have hacc : accumulate maxLen [] [] (p :: ps) = accumulate maxLen [] (joinWords [p]) ps := by
        conv_lhs => unfold accumulate
        simp [hpne, hfit, joinWith]
      obtain ⟨j, _, hjacc, _⟩ := accumulate_words maxLen [] ps [p] (by simp)
        (by intro w hw; rw [List.mem_singleton.mp hw]; exact hpne)
        (fun w hw => hall w (List.mem_cons_of_mem _ hw))
      have htok : ∀ t ∈ [p] ++ ps.take j, t ≠ [] ∧ ∀ b ∈ t, b ≠ 32 := by
        intro w hw
        have hmem : w ∈ p :: ps := by
          rcases List.mem_append.mp hw with h | h
          · rw [List.mem_singleton.mp h]; simp
          · exact List.mem_cons_of_mem _ (List.mem_of_mem_take h)
        exact ⟨hall w hmem, hno w hmem⟩
      have hpos : 0 < (joinWords ([p] ++ ps.take j)).length :=
        joinWords_length_pos _ (by simp) (fun w hw => (htok w hw).1)
      rw [hacc, hjacc, if_neg (List.length_pos.mp hpos), Option.some.injEq] at hk
      rw [← hk]
      intro h
      exact (joinWith_shape 32 _ htok).2.1 32 h rfl
    · have hacc : accumulate maxLen [] [] (p :: ps) = [] := by
        unfold accumulate
        simp [hpne, hfit]
      rw [hacc, if_pos rfl, int64SubLen_eq _ _ (by simp; omega),
        sliceBytes_take x _ (by simpa using h0) (by simp; omega), Option.some.injEq] at hk
      rw [← hk]
      intro h
      have hmem : (32 : Byte) ∈ x.take (maxLen - (([] : List Byte).length : Int)).toNat :=
        List.mem_of_getLast?_eq_some h
      obtain ⟨t, ht⟩ : ∃ t, x = p ++ t := by
        rw [← hjoin]
        cases ps with
        | nil => exact ⟨[], by simp [joinWith]⟩
        | cons u us => exact ⟨32 :: joinWith 32 (u :: us), by simp [joinWith]⟩
      rw [ht, List.take_append_of_le_length (by simp; omega)] at hmem
      exact hno p (by simp) 32 (List.mem_of_mem_take hmem) rfl

theorem Shorten_of_normalized (r : List Byte) (hr : Normalized r) (maxLen : Int)
    (hlen : (r.length : Int) ≤ maxLen) (suffix : List Byte) :
    Shorten r maxLen suffix = some r := by
  unfold Shorten
  simp only
  rw [normalize_of_normalized r hr, if_pos hlen]

/-- C21: with an empty suffix `Shorten` is idempotent: for every `s` and every
`maxLen >= 0`, `Shorten(s, maxLen, "")` returns a text, this text is in the form the
preparation steps leave and has at most `maxLen` bytes, and `Shorten` returns it
unchanged. -/
theorem Shorten_idempotent (s : List Byte) (maxLen : Int) (h0 : 0 ≤ maxLen) :
    ∃ r, Shorten s maxLen [] = some r ∧ Normalized r ∧ (r.length : Int) ≤ maxLen ∧
      normalize r = r ∧ Shorten r maxLen [] = some r ∧
      (Shorten s maxLen []).bind (fun t => Shorten t maxLen []) = Shorten s maxLen [] := by
  have hn := normalize_normalized s
  have key : ∃ r, Shorten s maxLen [] = some r ∧ Normalized r ∧ (r.length : Int) ≤ maxLen := by
    by_cases hfit : ((normalize s).length : Int) ≤ maxLen
    · refine ⟨normalize s, ?_, hn, hfit⟩
      unfold Shorten
      simp only
      rw [if_pos hfit]
    · obtain ⟨r, hk, hpre, hlast, hlen⟩ := kept_normalized (normalize s) hn maxLen h0 (by omega)
      refine ⟨r, ?_, Normalized_of_prefix r _ hn hpre hlast, hlen⟩
      unfold Shorten
      simp only
      rw [if_neg hfit, hk]
      simp [reconcile_eq]
  obtain ⟨r, hr, hnr, hlen⟩ := key
  have h2 := Shorten_of_normalized r hnr maxLen hlen []
  refine ⟨r, hr, hnr, hlen, normalize_of_normalized r hnr, h2, ?_⟩
  rw [hr]
  exact h2

/-- Witness of C21 on the eighth row of `TestShortenWithoutAppend`. -/
theorem Shorten_idempotent_witness :
    ∃ r, Shorten (bytesOf "sample text\r\n \r\n\r\n   \r\n\r\n  that has lots of space like chars")
        20 [] = some r ∧ Normalized r ∧ (r.length : Int) ≤ 20 ∧
      normalize r = r ∧ Shorten r 20 [] = some r ∧
      (Shorten (bytesOf "sample text\r\n \r\n\r\n   \r\n\r\n  that has lots of space like chars")
        20 []).bind (fun t => Shorten t 20 []) =
      Shorten (bytesOf "sample text\r\n \r\n\r\n   \r\n\r\n  that has lots of space like chars")
        20 [] :=
  Shorten_idempotent _ 20 (by decide)

/-! ## SpecialCharsToStandard applied twice -/

theorem utf8_append (as bs : List Char) : utf8 (as ++ bs) = utf8 as ++ utf8 bs := by
  simp [utf8]

theorem utf8_transliterateChars (c : Char) : utf8 (transliterateChars c) = transliterate c := by
  unfold transliterateChars transliterate specialCharsReplacer
  rw [List.find?_map]
  cases h : specialCharsPairs.find? (fun p => bytesOf p.1 = encodeRune c.toNat) with
  | none =>
    have : List.find? ((fun p : List Byte × List Byte => decide (p.1 = encodeRune c.toNat)) ∘
        fun p : String × String => (bytesOf p.1, bytesOf p.2)) specialCharsPairs = none := h
    rw [this]
    simp [utf8]
  | some p =>
    have : List.find? ((fun p : List Byte × List Byte => decide (p.1 = encodeRune c.toNat)) ∘
        fun p : String × String => (bytesOf p.1, bytesOf p.2)) specialCharsPairs = some p := h
    rw [this]
    rfl

theorem replacements_not_mapped :
    specialCharsPairs.all (fun p => p.2.toList.all (fun d => !isMapped d)) = true := by
  decide

theorem transliterateChars_not_mapped (c : Char) :
    ∀ d ∈ transliterateChars c, isMapped d = false := by
  intro d hd
  unfold transliterateChars at hd
  cases h : specialCharsPairs.find? (fun p => bytesOf p.1 = encodeRune c.toNat) with
  | none =>
    rw [h] at hd
    rw [List.mem_singleton.mp hd]
    rw [List.find?_eq_none] at h
    unfold isMapped specialCharsReplacer
    rw [List.any_eq_false]
    intro q hq
    obtain ⟨p, hp, hpq⟩ := List.mem_map.mp hq
    rw [← hpq]
    exact h p hp
  | some p =>
    rw [h] at hd
    have hp : p ∈ specialCharsPairs := List.mem_of_find?_eq_some h
    have h1 := List.all_eq_true.mp replacements_not_mapped p hp
    have h2 := List.all_eq_true.mp h1 d hd
    simpa using h2

theorem SpecialCharsToStandard_chars_out (cs : List Char) :
    SpecialCharsToStandard (utf8 cs) = utf8 (cs.flatMap transliterateChars) := by
  rw [SpecialCharsToStandard_utf8]
  induction cs with
  | nil => rfl
  | cons c cs ih =>
    simp only [List.flatMap_cons, utf8_append, utf8_transliterateChars, ih]

theorem infix_of_not_mem (x : Byte) (rest : List Byte) (as bs : List Byte) (h : x ∉ as)
    (hin : (x :: rest) <:+: as ++ bs) : (x :: rest) <:+: bs := by
  induction as with
  | nil => simpa using hin
  | cons a as ih =>
    rw [List.cons_append, List.infix_cons_iff] at hin
    rcases hin with hpre | hin
    · obtain ⟨t, ht⟩ := hpre
      simp only [List.cons_append, List.cons.injEq] at ht
      exact absurd (by rw [ht.1]; simp) h
    · exact ih (fun hm => h (List.mem_cons_of_mem _ hm)) hin

theorem utf8_no_key (out : List Char) (h : ∀ d ∈ out, isMapped d = false) :
    ∀ p ∈ specialCharsReplacer, ¬ p.1 <:+: utf8 out := by
  intro p hp
  obtain ⟨k, hk⟩ := specialCharsReplacer_key p hp
  rw [hk]
  induction out with
  | nil =>
    intro hin
    have := List.eq_nil_of_infix_nil hin
    simp at this
  | cons d ds ih =>
    have ihds := ih (fun e he => h e (List.mem_cons_of_mem _ he))
    have hd : isMapped d = false := h d (by simp)
    have hsplit : utf8 (d :: ds) = encodeRune d.toNat ++ utf8 ds := by simp [utf8]
    rw [hsplit]
    intro hin
    rcases encodeRune_shape d.toNat with hno | ⟨y, hy, henc⟩
    · exact ihds (infix_of_not_mem _ _ _ _ (fun hm => hno _ hm rfl) hin)
    · rw [henc] at hin
      simp only [List.cons_append, List.nil_append] at hin
      rw [List.infix_cons_iff] at hin
      rcases hin with hpre | hin
      · obtain ⟨t, ht⟩ := hpre
        simp only [List.cons_append, List.cons.injEq, true_and, List.nil_append] at ht
        have hkey : p.1 = encodeRune d.toNat := by rw [hk, henc, ht.1]
        unfold isMapped at hd
        rw [List.any_eq_false] at hd
        exact hd p hp (by simpa using hkey)
      · rw [List.infix_cons_iff] at hin
        rcases hin with hpre | hin
        · obtain ⟨t, ht⟩ := hpre
          simp only [List.cons_append, List.cons.injEq] at ht
          exact hy ht.1.symm
        · exact ihds hin

/-- C22: for every valid UTF-8 text, given by its characters, the result of
`SpecialCharsToStandard` is a valid UTF-8 text without mapped characters, no old string
of the table occurs in it, and `SpecialCharsToStandard` returns it unchanged. -/
theorem SpecialCharsToStandard_idempotent (cs : List Char) :
    (∃ out : List Char, SpecialCharsToStandard (utf8 cs) = utf8 out ∧
        ∀ d ∈ out, isMapped d = false) ∧
      (∀ p ∈ specialCharsReplacer, ¬ p.1 <:+: SpecialCharsToStandard (utf8 cs)) ∧
      SpecialCharsToStandard (SpecialCharsToStandard (utf8 cs)) =
        SpecialCharsToStandard (utf8 cs) := by
  have hout : ∀ d ∈ cs.flatMap transliterateChars, isMapped d = false := by
    intro d hd
    obtain ⟨c, _, hdc⟩ := List.mem_flatMap.mp hd
    exact transliterateChars_not_mapped c d hdc
  have hkey := utf8_no_key _ hout
  rw [SpecialCharsToStandard_chars_out]
  exact ⟨⟨_, rfl, hout⟩, hkey, SpecialCharsToStandard_of_no_key _ hkey⟩

/-! ## The code page on 7-bit input -/

theorem cp1258_ascii : cp1258.take 128 = List.range 128 := by decide

theorem cp1258Char_ascii (chr : Byte) (h : chr.val < 128) :
    encodeRune (cp1258Char chr).toNat = [chr] := by
  have h1 : cp1258[chr.val]? = some chr.val := by
    have : (cp1258.take 128)[chr.val]? = some chr.val := by
      rw [cp1258_ascii, List.getElem?_range h]
    rwa [List.getElem?_take_of_lt h] at this
  have h2 := cp1258_lookup chr
  rw [h1, Option.some.injEq] at h2
  rw [← h2]
  unfold encodeRune
  rw [if_pos h]
  congr 1
  apply Fin.ext
  rw [val_ofNat]
  omega

/-- C23: `CP1258ToUTF8` is the identity on 7-bit input: for every byte sequence whose
bytes are all below `0x80`, the bytes of the result are exactly the input. -/
theorem CP1258ToUTF8_ascii (b : List Byte) (h : ∀ x ∈ b, x.val < 128) :
    CP1258ToUTF8 b = some b := by
  have hfrom := CP1258ToUTF8_from b []
  unfold CP1258ToUTF8
  rw [hfrom, List.nil_append]
  congr 1
  induction b with
  | nil => rfl
  | cons c cs ih =>
    have : utf8 (List.map cp1258Char (c :: cs)) =
        encodeRune (cp1258Char c).toNat ++ utf8 (List.map cp1258Char cs) := by simp [utf8]
    rw [this, cp1258Char_ascii c (h c (by simp)),
      ih (fun x hx => h x (List.mem_cons_of_mem _ hx)) (CP1258ToUTF8_from cs [])]
    rfl

/-- Witness of C23 on the bytes of `"Base64 \r\n"`, all below `0x80`. -/
theorem CP1258ToUTF8_ascii_witness :
    CP1258ToUTF8 (bytesOf "Base64 \r\n") = some (bytesOf "Base64 \r\n") :=
  CP1258ToUTF8_ascii _ (by decide)

end Texttools
